import Mathlib

/-!
Verification of the mergefs virtual mount filesystem and the common
authentication helpers of the webdav-server repository.

Go strings are byte sequences.  Paths handled by the mergefs package are
modelled as lists of characters (`Str`): on UTF-8 data the byte-wise Go
operations used by the code (HasPrefix, TrimPrefix, Trim, Split on "/",
lexicographic comparison) coincide with the code-point-wise operations,
because UTF-8 byte order agrees with code point order.  The credential
and token helpers of the common package manipulate raw bytes (hashes,
base64), so there Go strings are modelled as lists of byte values
(`List Nat`, each element < 256).
-/

set_option maxRecDepth 100000

/-- Paths, modelled as lists of characters. -/
abbrev Str : Type := List Char

/-- Convenience injection of a Lean string literal into `Str`. -/
def str (s : String) : Str := s.data

/-- Go byte comparison of two characters (code-point order agrees with
UTF-8 byte order). -/
def chLt (a b : Char) : Bool := a.toNat < b.toNat

/-- Lexicographic comparison of two Go strings: `cmp.Compare(a, b) < 0`. -/
def strLtB : Str → Str → Bool
  | [], [] => false
  | [], _ :: _ => true
  | _ :: _, [] => false
  | a :: as, b :: bs => if chLt a b then true else if chLt b a then false else strLtB as bs

/-- Go strings.HasPrefix(s, pre). -/
def hasPre {α : Type} [BEq α] (pre s : List α) : Bool := List.isPrefixOf pre s

/-- Go strings.TrimPrefix(s, pre). -/
def trimPre {α : Type} [BEq α] (s pre : List α) : List α :=
  if hasPre pre s then s.drop pre.length else s

/-- Drop every leading occurrence of `c` (one side of strings.Trim with a
single-character cut set). -/
def trimLead {α : Type} [DecidableEq α] (c : α) : List α → List α
  | [] => []
  | x :: xs => if x = c then trimLead c xs else x :: xs

/-- Go strings.Trim(s, cutset) for a single-character cut set: drop the
character from both ends. -/
def trimBoth {α : Type} [DecidableEq α] (c : α) (s : List α) : List α :=
  (trimLead c (trimLead c s).reverse).reverse

/-- Go strings.Split(s, sep) for a one-element separator.  Splitting the
empty string yields one empty field, exactly as in Go. -/
def splitOnE {α : Type} [DecidableEq α] (sep : α) : List α → List (List α)
  | [] => [[]]
  | c :: rest =>
    match splitOnE sep rest with
    | [] => [[c]]
    | h :: t => if c = sep then [] :: h :: t else (c :: h) :: t

/-- Join a list of fields with a one-element separator. -/
def joinSep {α : Type} (sep : α) : List (List α) → List α
  | [] => []
  | [x] => x
  | x :: y :: rest => x ++ sep :: joinSep sep (y :: rest)

/-- The stack machine of Go path.Clean, working on the list of
"/"-separated segments instead of on bytes.  Empty and "." segments are
dropped; ".." pops the last kept segment when one is available, is
dropped at the root of a rooted path, and is kept literally when an
unrooted path cannot backtrack further. -/
def cleanSegs (rooted : Bool) : List Str → List Str → List Str
  | stack, [] => stack
  | stack, seg :: rest =>
    if seg = [] ∨ seg = ['.'] then cleanSegs rooted stack rest
    else if seg = ['.', '.'] then
      match stack with
      | top :: below =>
        if top = ['.', '.'] then cleanSegs rooted (seg :: top :: below) rest
        else cleanSegs rooted below rest
      | [] => if rooted then cleanSegs rooted [] rest else cleanSegs rooted [seg] rest
    else cleanSegs rooted (seg :: stack) rest

/-- Go path.Clean, translated segment-wise. -/
def pathClean (p : Str) : Str :=
  if p = [] then ['.']
  else
    let rooted := hasPre ['/'] p
    let stack := cleanSegs rooted [] (splitOnE '/' p)
    let body := joinSep '/' stack.reverse
    if rooted then '/' :: body
    else if body = [] then ['.'] else body

/-- mergefs.NormalizePath.  filepath.ToSlash is the identity on a system
whose separator is already the slash, so it does not appear. -/
def normalizePath (p : Str) : Str :=
  let c := pathClean p
  let c := if c = ['.'] then ['/'] else c
  '/' :: trimBoth '/' c

/-- A mount table entry (mergefs.Mount).  The backing afero.Fs is opaque
to the mount table and is modelled by a numeric identity. -/
structure Mnt where
  pfx : Str
  fsId : Nat
deriving DecidableEq, Repr

/-- The matching test of MountFs.GetMount for one mount:
path == mount.Prefix || strings.HasPrefix(path, mount.Prefix+"/"). -/
def mntMatches (path : Str) (m : Mnt) : Bool :=
  path == m.pfx || hasPre (m.pfx ++ ['/']) path

/-- First mount of the table that matches the path, in table order. -/
def findMnt (path : Str) : List Mnt → Option Mnt
  | [] => none
  | m :: rest => if mntMatches path m then some m else findMnt path rest

/-- MountFs.GetMount: normalize, give the default backend the root, then
scan the table in order and strip the matched prefix. -/
def getMount (mounts : List Mnt) (dflt : Nat) (p : Str) : Nat × Str :=
  let path := normalizePath p
  if path = ['/'] then (dflt, path)
  else
    match findMnt path mounts with
    | some m => (m.fsId, trimPre path m.pfx)
    | none => (dflt, path)

/-- Error values of MountFs.Mount. -/
inductive MountErr
  | invalidArg
  | alreadyExists
deriving DecidableEq, Repr

/-- Insert one mount into a list that is already in descending prefix
order, keeping that order. -/
def insDesc (m : Mnt) : List Mnt → List Mnt
  | [] => [m]
  | x :: xs => if strLtB x.pfx m.pfx then m :: x :: xs else x :: insDesc m xs

/-- slices.SortFunc with comparator -cmp.Compare(a.Prefix, b.Prefix):
the mounts end up in descending lexicographic order of prefix.  Modelled
as an insertion sort; on the pairwise-distinct prefixes that Mount
maintains every correct sort produces this same list. -/
def sortDesc : List Mnt → List Mnt
  | [] => []
  | m :: rest => insDesc m (sortDesc rest)

/-- The prefix normalization performed by MountFs.Mount and
MountFs.Unmount: "/" + strings.Trim(prefix, "/"). -/
def mountNorm (pre : Str) : Str := '/' :: trimBoth '/' pre

/-- MountFs.Mount. -/
def mountAdd (mounts : List Mnt) (pre : Str) (fsId : Nat) : Except MountErr (List Mnt) :=
  let q := mountNorm pre
  if q = ['/'] then .error .invalidArg
  else if mounts.any (fun m => m.pfx == q) then .error .alreadyExists
  else .ok (sortDesc (mounts ++ [⟨q, fsId⟩]))

/-- Remove the first mount carrying the given prefix. -/
def removeFirstMnt (q : Str) : List Mnt → List Mnt
  | [] => []
  | m :: rest => if m.pfx = q then rest else m :: removeFirstMnt q rest

/-- MountFs.Unmount: returns whether a mount was removed, with the new
table. -/
def unmountOp (mounts : List Mnt) (pre : Str) : Bool × List Mnt :=
  let q := mountNorm pre
  if mounts.any (fun m => m.pfx == q) then (true, removeFirstMnt q mounts)
  else (false, mounts)

/-- MountFs.directDir: the mount whose prefix equals the normalized
directory, if any. -/
def directDir (mounts : List Mnt) (dir : Str) : Option Mnt :=
  let d := normalizePath dir
  mounts.find? (fun m => m.pfx == d)

/-- MountFs.hasChildMount: some mount prefix lies strictly below the
directory. -/
def hasChildMount (mounts : List Mnt) (dir : Str) : Bool :=
  let d := normalizePath dir ++ ['/']
  mounts.any (fun m => hasPre d m.pfx)

/-- MountFs.getMountsUnder: all mounts whose prefix is strictly below the
directory; the root matches every other prefix. -/
def getMountsUnder (mounts : List Mnt) (dir : Str) : List Mnt :=
  let d := normalizePath dir
  mounts.filter (fun m =>
    if m.pfx == d then false
    else if d == ['/'] then hasPre ['/'] m.pfx
    else hasPre (d ++ ['/']) m.pfx)

/-- Outcome of MountFs.Remove / MountFs.RemoveAll: the structural guard
errors, or dispatch to the resolved backend (rendered as the backend
identity and relative path; no removal has happened in the error
cases). -/
inductive RemoveOut
  | errPermission
  | errMountPoint
  | forward (fsId : Nat) (rel : Str)
deriving DecidableEq, Repr

/-- MountFs.Remove: mount points cannot be removed (os.ErrPermission);
directories containing a mount point cannot be removed either
("directory contains a mount point"); otherwise forward. -/
def removeOp (mounts : List Mnt) (dflt : Nat) (p : Str) : RemoveOut :=
  if (directDir mounts p).isSome then .errPermission
  else if hasChildMount mounts p then .errMountPoint
  else
    let r := getMount mounts dflt p
    .forward r.1 r.2

/-- MountFs.RemoveAll: the guards are the same as in MountFs.Remove. -/
def removeAllOp (mounts : List Mnt) (dflt : Nat) (p : Str) : RemoveOut :=
  if (directDir mounts p).isSome then .errPermission
  else if hasChildMount mounts p then .errMountPoint
  else
    let r := getMount mounts dflt p
    .forward r.1 r.2

example : normalizePath (str "/app/users/../config") = str "/app/config" := by decide
example : normalizePath (str ".") = str "/" := by decide
example : normalizePath (str "/a/b/") = str "/a/b" := by decide
example : getMount [⟨str "/app", 1⟩] 0 (str "/app/x") = (1, str "/x") := by decide
example : getMount [⟨str "/app", 1⟩] 0 (str "/app") = (1, []) := by decide
example : getMount [] 7 (str "/q/w") = (7, str "/q/w") := by decide

/-- os.ModeDir (bit 31 of a Go os.FileMode). -/
def MODEDIR : Nat := 2 ^ 31

/-- The slice of an os.FileInfo that the mergefs code inspects: the name
and the file mode. -/
structure FInfo where
  nm : Str
  mode : Nat
deriving DecidableEq, Repr

/-- FileInfo.IsDir(). -/
def finfoIsDir (i : FInfo) : Bool := i.mode &&& MODEDIR != 0

/-- Outcome of a backend Stat call: success, an error satisfying
os.IsNotExist, or any other error. -/
inductive StatRes
  | ok (i : FInfo)
  | notFound
  | otherErr
deriving DecidableEq, Repr

/-- A backend environment: each backend identity answers Stat queries. -/
abbrev StatEnv : Type := Nat → Str → StatRes

/-- filepath.Base on a slash-separated path. -/
def baseName (p : Str) : Str :=
  if p = [] then ['.']
  else
    let q := (trimLead '/' p.reverse).reverse
    if q = [] then ['/']
    else (splitOnE '/' q).getLastD []

/-- The virtual-directory scan of MountFs.Stat step 3: some mount prefix
has the name as a proper prefix, and extends it along a path boundary. -/
def statVirtualCond (mounts : List Mnt) (name : Str) : Bool :=
  mounts.any (fun m =>
    hasPre name m.pfx && m.pfx != name && (name == ['/'] || hasPre (name ++ ['/']) m.pfx))

/-- Result of MountFs.Stat: a mountFileInfo for a direct mount point, a
backend FileInfo, a virtualFileInfo for an intermediate directory, or an
error. -/
inductive StatOut
  | mountInfo (name : Str) (m : Mnt)
  | backendInfo (i : FInfo)
  | virtualDir (name : Str)
  | errNotFound
  | errOther
deriving DecidableEq, Repr

/-- MountFs.Stat: (1) direct mount points answer with a synthetic
directory; (2) otherwise ask the resolved backend and return its answer
unless the error is not-found; (3) on not-found, synthesize a virtual
directory for proper ancestors of mount prefixes, else keep the
not-found error. -/
def statOp (mounts : List Mnt) (dflt : Nat) (env : StatEnv) (nm : Str) : StatOut :=
  let name := normalizePath nm
  match directDir mounts name with
  | some m => .mountInfo (baseName name) m
  | none =>
    let r := getMount mounts dflt name
    match env r.1 r.2 with
    | .ok i => .backendInfo i
    | .otherErr => .errOther
    | .notFound =>
      if statVirtualCond mounts name then .virtualDir (baseName name) else .errNotFound

/-- The mode field stored in a mountFileInfo: os.ModeDir | 0o755.
mountFileInfo.IsDir() reads this stored field, so a direct mount point
always reports a directory. -/
def mountInfoStoredMode : Nat := MODEDIR ||| 0o755

/-- mountFileInfo.Mode(): the mounted backend's mode for "/" when its
Stat succeeds, else the stored mode. -/
def mountInfoMode (env : StatEnv) (m : Mnt) : Nat :=
  match env m.fsId ['/'] with
  | .ok i => i.mode
  | _ => mountInfoStoredMode

/-- Whether a Stat outcome reports a directory (the IsDir() of the
FileInfo each branch returns; errors report nothing). -/
def statOutIsDir (o : StatOut) : Option Bool :=
  match o with
  | .mountInfo _ _ => some (mountInfoStoredMode &&& MODEDIR != 0)
  | .backendInfo i => some (finfoIsDir i)
  | .virtualDir _ => some ((MODEDIR ||| 0o755) &&& MODEDIR != 0)
  | .errNotFound => none
  | .errOther => none

/-- Association-list update with Go map semantics: a present key keeps
its position and takes the new value, an absent key is appended. -/
def assocPut {β : Type} (mp : List (Str × β)) (k : Str) (v : β) : List (Str × β) :=
  match mp with
  | [] => [(k, v)]
  | (k0, v0) :: rest => if k0 = k then (k0, v) :: rest else (k0, v0) :: assocPut rest k v

/-- Association-list lookup. -/
def assocGet {β : Type} (mp : List (Str × β)) (k : Str) : Option β :=
  match mp with
  | [] => none
  | (k0, v0) :: rest => if k0 = k then some v0 else assocGet rest k

/-- Association-list removal of a key (Go map delete; keys are unique in
every map the code builds, so dropping every binding of the key is the
same operation). -/
def assocDel {β : Type} (mp : List (Str × β)) (k : Str) : List (Str × β) :=
  mp.filter (fun kv => kv.1 != k)

/-- The kinds of entries a merged directory listing can hold: a backend
entry, a mount-point entry, or a synthesized virtual directory. -/
inductive EntryKind
  | fromBackend (i : FInfo)
  | mountPoint (m : Mnt)
  | virtualEnt
deriving DecidableEq, Repr

/-- The entry map of mountFsFile.collectEntries, keyed by entry name. -/
abbrev EntryMap : Type := List (Str × EntryKind)

/-- The path of a mount relative to the directory, as collectEntries
computes it: TrimPrefix by the directory, then TrimPrefix by "/", then
Split on "/". -/
def mntParts (dir : Str) (m : Mnt) : List Str :=
  splitOnE '/' (trimPre (trimPre m.pfx dir) ['/'])

/-- First path segment of a mount prefix below the directory. -/
def firstSeg (dir : Str) (m : Mnt) : Str := (mntParts dir m).headD []

/-- Whether the mount attaches exactly one level below the directory. -/
def isDirectUnder (dir : Str) (m : Mnt) : Bool := (mntParts dir m).length == 1

/-- One step of the mount loop of collectEntries: a direct mount always
overwrites the entry of its name; a deeper mount adds a virtual
directory only when the name is still absent. -/
def addMountEntry (dir : Str) (mp : EntryMap) (m : Mnt) : EntryMap :=
  match mntParts dir m with
  | [] => mp
  | nm0 :: restParts =>
    if restParts = [] then assocPut mp nm0 (.mountPoint m)
    else if (assocGet mp nm0).isSome then mp
    else assocPut mp nm0 .virtualEnt

/-- Insert an entry into a list that is in ascending name order, keeping
that order. -/
def insAsc (x : Str × EntryKind) : EntryMap → EntryMap
  | [] => [x]
  | y :: ys => if strLtB y.1 x.1 then y :: insAsc x ys else x :: y :: ys

/-- sort.Slice by entry name ascending.  Modelled as an insertion sort;
the keys of an entry map are pairwise distinct, so every correct sort
produces this list, whatever order Go's map iteration fed it. -/
def sortAsc : EntryMap → EntryMap
  | [] => []
  | x :: xs => insAsc x (sortAsc xs)

/-- mountFsFile.collectEntries: drain the backend directory into a map
keyed by name, splice in the mounts lying under the directory, and sort
by name. -/
def collectEntries (mounts : List Mnt) (dir : Str) (backendInfos : List FInfo) : EntryMap :=
  let mp0 : EntryMap := backendInfos.foldl (fun mp i => assocPut mp i.nm (.fromBackend i)) []
  let mp1 := (getMountsUnder mounts dir).foldl (addMountEntry dir) mp0
  sortAsc mp1

/-- A merged directory handle: the materialized entries and the read
offset (mountFsFile). -/
structure DirHandle where
  entries : EntryMap
  offset : Nat
deriving DecidableEq, Repr

/-- The one failure mountFsFile.Readdir can signal: io.EOF. -/
inductive RdErr
  | eof
deriving DecidableEq, Repr

/-- mountFsFile.Readdir: at the end of the stream a non-positive count
yields an empty slice and a positive count yields io.EOF; otherwise up
to count entries (all remaining when count is non-positive) are
returned and the offset advances past them. -/
def readdirGo (h : DirHandle) (count : Int) : Except RdErr EntryMap × DirHandle :=
  if h.entries.length ≤ h.offset then
    if count ≤ 0 then (.ok [], h) else (.error .eof, h)
  else
    let start := h.offset
    let stop :=
      if count > 0 ∧ start + count.toNat < h.entries.length then start + count.toNat
      else h.entries.length
    let chunk := (h.entries.drop start).take (stop - start)
    if count > 0 ∧ chunk.length = 0 then (.error .eof, { h with offset := stop })
    else (.ok chunk, { h with offset := stop })

/-- mountFsFile.Readdirnames duplicates the Readdir state machine and
returns the names only. -/
def readdirNamesGo (h : DirHandle) (count : Int) : Except RdErr (List Str) × DirHandle :=
  match readdirGo h count with
  | (.ok l, h2) => (.ok (l.map Prod.fst), h2)
  | (.error e, h2) => (.error e, h2)

example :
    collectEntries [⟨str "/mounted", 1⟩] (str "/")
      [⟨str "dir1", MODEDIR⟩, ⟨str "file1.txt", 0o644⟩] =
    [(str "dir1", .fromBackend ⟨str "dir1", MODEDIR⟩),
     (str "file1.txt", .fromBackend ⟨str "file1.txt", 0o644⟩),
     (str "mounted", .mountPoint ⟨str "/mounted", 1⟩)] := by decide

example :
    statOp [⟨str "/a/b/c", 1⟩] 0 (fun _ _ => .notFound) (str "/a") =
      .virtualDir (str "a") := by decide

/-- A file on a backing filesystem, as far as cross-backend rename
observes one: content bytes, mode, and whether it is a directory. -/
structure GoFile where
  content : List Nat
  mode : Nat
  isDir : Bool
deriving DecidableEq, Repr

/-- A backing filesystem state used by the cross-backend rename model: a
name-to-file map plus a read-only flag (afero.NewReadOnlyFs rejects
Create, Chmod and Remove). -/
structure BFs where
  files : List (Str × GoFile)
  readOnly : Bool
deriving DecidableEq, Repr

/-- Errors the backend operations of the rename model produce. -/
inductive FsErr
  | notFoundE
  | permissionE
  | ioE
deriving DecidableEq, Repr

def bfsLookup (fs : BFs) (p : Str) : Option GoFile :=
  (fs.files.find? (fun kv => kv.1 == p)).map Prod.snd

/-- Backend Create: truncate or create the named file. -/
def bfsCreate (fs : BFs) (p : Str) : Except FsErr BFs :=
  if fs.readOnly then .error .permissionE
  else .ok { fs with files := assocPut fs.files p ⟨[], 0o666, false⟩ }

/-- Overwrite the content of an existing file (the effect of io.Copy
into a freshly created destination). -/
def bfsWrite (fs : BFs) (p : Str) (content : List Nat) : BFs :=
  match bfsLookup fs p with
  | some f => { fs with files := assocPut fs.files p { f with content := content } }
  | none => fs

def bfsChmod (fs : BFs) (p : Str) (mode : Nat) : Except FsErr BFs :=
  if fs.readOnly then .error .permissionE
  else
    match bfsLookup fs p with
    | some f => .ok { fs with files := assocPut fs.files p { f with mode := mode } }
    | none => .error .notFoundE

def bfsRemove (fs : BFs) (p : Str) : Except FsErr BFs :=
  if fs.readOnly then .error .permissionE
  else
    match bfsLookup fs p with
    | some _ => .ok { fs with files := assocDel fs.files p }
    | none => .error .notFoundE

/-- Backend Remove with the error discarded, as in the cleanup calls
"_ = dstFs.Remove(dst)" of copyFile. -/
def bfsRemoveQ (fs : BFs) (p : Str) : BFs :=
  match bfsRemove fs p with
  | .ok fs2 => fs2
  | .error _ => fs

/-- mergefs.copyFile.  The backend states are threaded explicitly; the
result keeps the final source and destination states next to the error
so that cleanup is observable.  copyOk and chmodOk inject the I/O
failures of io.Copy and of Chmod that the state map alone cannot
produce: every error return after the destination was created removes
the partial destination first. -/
def copyFile (srcFs : BFs) (src : Str) (dstFs : BFs) (dst : Str)
    (copyOk chmodOk : Bool) : Except FsErr Unit × BFs × BFs :=
  match bfsLookup srcFs src with
  | none => (.error .notFoundE, srcFs, dstFs)
  | some f =>
    match bfsCreate dstFs dst with
    | .error e => (.error e, srcFs, dstFs)
    | .ok d1 =>
      if copyOk = false then (.error .ioE, srcFs, bfsRemoveQ d1 dst)
      else
        let d2 := bfsWrite d1 dst f.content
        match bfsLookup srcFs src with
        | none => (.error .notFoundE, srcFs, bfsRemoveQ d2 dst)
        | some sInfo =>
          if chmodOk = false then (.error .ioE, srcFs, bfsRemoveQ d2 dst)
          else
            match bfsChmod d2 dst sInfo.mode with
            | .error e => (.error e, srcFs, bfsRemoveQ d2 dst)
            | .ok d3 => (.ok (), srcFs, d3)

/-- Outcome of MountFs.crossRename.  A directory source is delegated to
crossRenameDir, which this model leaves abstract (the regular-file claim
never reaches it). -/
inductive CrossOut
  | okOut (srcFs dstFs : BFs)
  | errOut (e : FsErr) (srcFs dstFs : BFs)
  | dirCase
deriving DecidableEq, Repr

/-- MountFs.crossRename for the paths the model covers: open and stat
the source, hand directories to crossRenameDir, otherwise copy the file
and remove the source only after the copy fully succeeded. -/
def crossRename (srcFs : BFs) (src : Str) (dstFs : BFs) (dst : Str)
    (copyOk chmodOk : Bool) : CrossOut :=
  match bfsLookup srcFs src with
  | none => .errOut .notFoundE srcFs dstFs
  | some f =>
    if f.isDir then .dirCase
    else
      match copyFile srcFs src dstFs dst copyOk chmodOk with
      | (.error e, s2, d2) => .errOut e s2 d2
      | (.ok _, s2, d2) =>
        match bfsRemove s2 src with
        | .error e => .errOut e s2 d2
        | .ok s3 => .okOut s3 d2

example :
    crossRename ⟨[(str "/f", ⟨[1, 2], 0o640, false⟩)], false⟩ (str "/f")
      ⟨[], false⟩ (str "/g") true true =
    .okOut ⟨[], false⟩ ⟨[(str "/g", ⟨[1, 2], 0o640, false⟩)], false⟩ := by decide

example :
    crossRename ⟨[(str "/f", ⟨[1, 2], 0o640, false⟩)], false⟩ (str "/f")
      ⟨[], false⟩ (str "/g") true false =
    .errOut .ioE ⟨[(str "/f", ⟨[1, 2], 0o640, false⟩)], false⟩ ⟨[], false⟩ := by decide

/-- UTF-8 bytes of an ASCII Lean string literal, used to write the byte
strings of the common package. -/
def ascii (s : String) : List Nat := s.data.map Char.toNat

/-- Truncating 32-bit rotate right. -/
def rotr32 (n x : Nat) : Nat := ((x >>> n) ||| (x <<< (32 - n))) % 2 ^ 32

/-- SHA-256 round constants. -/
def shaK : List Nat :=
  [0x428A2F98, 0x71374491, 0xB5C0FBCF, 0xE9B5DBA5, 0x3956C25B, 0x59F111F1, 0x923F82A4, 0xAB1C5ED5,
   0xD807AA98, 0x12835B01, 0x243185BE, 0x550C7DC3, 0x72BE5D74, 0x80DEB1FE, 0x9BDC06A7, 0xC19BF174,
   0xE49B69C1, 0xEFBE4786, 0x0FC19DC6, 0x240CA1CC, 0x2DE92C6F, 0x4A7484AA, 0x5CB0A9DC, 0x76F988DA,
   0x983E5152, 0xA831C66D, 0xB00327C8, 0xBF597FC7, 0xC6E00BF3, 0xD5A79147, 0x06CA6351, 0x14292967,
   0x27B70A85, 0x2E1B2138, 0x4D2C6DFC, 0x53380D13, 0x650A7354, 0x766A0ABB, 0x81C2C92E, 0x92722C85,
   0xA2BFE8A1, 0xA81A664B, 0xC24B8B70, 0xC76C51A3, 0xD192E819, 0xD6990624, 0xF40E3585, 0x106AA070,
   0x19A4C116, 0x1E376C08, 0x2748774C, 0x34B0BCB5, 0x391C0CB3, 0x4ED8AA4A, 0x5B9CCA4F, 0x682E6FF3,
   0x748F82EE, 0x78A5636F, 0x84C87814, 0x8CC70208, 0x90BEFFFA, 0xA4506CEB, 0xBEF9A3F7, 0xC67178F2]

/-- SHA-256 initial hash state. -/
def shaH0 : List Nat :=
  [0x6A09E667, 0xBB67AE85, 0x3C6EF372, 0xA54FF53A, 0x510E527F, 0x9B05688C, 0x1F83D9AB, 0x5BE0CD19]

def shaCh (x y z : Nat) : Nat := (x &&& y) ^^^ ((x ^^^ (2 ^ 32 - 1)) &&& z)

def shaMaj (x y z : Nat) : Nat := (x &&& y) ^^^ (x &&& z) ^^^ (y &&& z)

def shaS0 (x : Nat) : Nat := rotr32 2 x ^^^ rotr32 13 x ^^^ rotr32 22 x

def shaS1 (x : Nat) : Nat := rotr32 6 x ^^^ rotr32 11 x ^^^ rotr32 25 x

def shas0 (x : Nat) : Nat := rotr32 7 x ^^^ rotr32 18 x ^^^ (x >>> 3)

def shas1 (x : Nat) : Nat := rotr32 17 x ^^^ rotr32 19 x ^^^ (x >>> 10)

/-- Big-endian bytes of a 64-bit length. -/
def be64 (n : Nat) : List Nat :=
  [(n >>> 56) % 256, (n >>> 48) % 256, (n >>> 40) % 256, (n >>> 32) % 256,
   (n >>> 24) % 256, (n >>> 16) % 256, (n >>> 8) % 256, n % 256]

/-- Big-endian bytes of a 32-bit word. -/
def be32 (n : Nat) : List Nat :=
  [(n >>> 24) % 256, (n >>> 16) % 256, (n >>> 8) % 256, n % 256]

/-- SHA-256 padding: a 0x80 byte, zeros to 56 mod 64, and the bit length
as a 64-bit big-endian integer. -/
def shaPad (msg : List Nat) : List Nat :=
  let z := (120 - (msg.length + 1) % 64) % 64
  msg ++ 0x80 :: (List.replicate z 0 ++ be64 (8 * msg.length))

/-- Big-endian 32-bit words of a byte sequence. -/
def toWords : List Nat → List Nat
  | a :: b :: c :: d :: rest => (a * 2 ^ 24 + b * 2 ^ 16 + c * 2 ^ 8 + d) :: toWords rest
  | _ => []

/-- Message-schedule extension: append `n` further words. -/
def shaExtend : Nat → List Nat → List Nat
  | 0, w => w
  | n + 1, w =>
    let i := w.length
    let wi := (shas1 (w.getD (i - 2) 0) + w.getD (i - 7) 0 +
               shas0 (w.getD (i - 15) 0) + w.getD (i - 16) 0) % 2 ^ 32
    shaExtend n (w ++ [wi])

/-- One SHA-256 round on the eight-word working state. -/
def shaRound (w k : Nat) (s : List Nat) : List Nat :=
  match s with
  | [a, b, c, d, e, f, g, hh] =>
    let t1 := (hh + shaS1 e + shaCh e f g + k + w) % 2 ^ 32
    let t2 := (shaS0 a + shaMaj a b c) % 2 ^ 32
    [(t1 + t2) % 2 ^ 32, a, b, c, (d + t1) % 2 ^ 32, e, f, g]
  | s => s

/-- Run the 64 rounds over the schedule and round constants. -/
def shaRounds : List Nat → List Nat → List Nat → List Nat
  | [], _, s => s
  | _ :: _, [], s => s
  | w :: ws, k :: ks, s => shaRounds ws ks (shaRound w k s)

/-- Compress one 64-byte chunk into the hash state. -/
def shaCompress (chunk : List Nat) (h : List Nat) : List Nat :=
  let w := shaExtend 48 (toWords chunk)
  let s := shaRounds w shaK h
  List.zipWith (fun x y => (x + y) % 2 ^ 32) h s

/-- Fold the compression over the 64-byte chunks; the fuel equals the
chunk count of the padded message, so it never runs out. -/
def shaChunks : Nat → List Nat → List Nat → List Nat
  | 0, _, h => h
  | n + 1, bytes, h => shaChunks n (bytes.drop 64) (shaCompress (bytes.take 64) h)

/-- crypto/sha256.Sum256 as a pure function on byte lists. -/
def sha256 (msg : List Nat) : List Nat :=
  let padded := shaPad msg
  let h := shaChunks (padded.length / 64) padded shaH0
  (h.map be32).foldr (fun w acc => w ++ acc) []

example :
    sha256 [] =
    [0xe3, 0xb0, 0xc4, 0x42, 0x98, 0xfc, 0x1c, 0x14, 0x9a, 0xfb, 0xf4, 0xc8,
     0x99, 0x6f, 0xb9, 0x24, 0x27, 0xae, 0x41, 0xe4, 0x64, 0x9b, 0x93, 0x4c,
     0xa4, 0x95, 0x99, 0x1b, 0x78, 0x52, 0xb8, 0x55] := by decide

example :
    sha256 (ascii "abc") =
    [0xba, 0x78, 0x16, 0xbf, 0x8f, 0x01, 0xcf, 0xea, 0x41, 0x41, 0x40, 0xde,
     0x5d, 0xae, 0x22, 0x23, 0xb0, 0x03, 0x61, 0xa3, 0x96, 0x17, 0x7a, 0x9c,
     0xb4, 0x10, 0xff, 0x61, 0xf2, 0x00, 0x15, 0xad] := by decide

/-- Lower-case hex digit of a value below 16 (the digits fmt "%x"
produces). -/
def hexDigitL (n : Nat) : Nat := if n < 10 then 48 + n else 87 + n

/-- fmt.Sprintf("%x", bytes): lower-case hex encoding. -/
def hexEncode (bs : List Nat) : List Nat :=
  bs.foldr (fun b acc => hexDigitL (b / 16) :: hexDigitL (b % 16) :: acc) []

/-- subtle.ConstantTimeCompare: 1 exactly when the two byte strings have
equal length and equal contents, 0 otherwise.  Timing is outside the
model. -/
def ctCompare (x y : List Nat) : Nat := if x = y then 1 else 0

/-- common.verifyPassword.  The argon2id branch delegates to
verifyArgon2id, which is abstracted as a parameter: the claims under
verification never reach it. -/
def verifyPassword (argon : List Nat → List Nat → Bool)
    (stored plain : List Nat) : Bool :=
  if hasPre (ascii "argon2id:") stored then
    argon (trimPre stored (ascii "argon2id:")) plain
  else if hasPre (ascii "sha256:") stored then
    let expected := trimPre stored (ascii "sha256:")
    let actual := hexEncode (sha256 plain)
    ctCompare expected actual == 1
  else stored == plain

/-- Value of one hex digit, upper or lower case (the standard reading of
hex the specification appeals to when it speaks of the digest denoted by
the stored hex text). -/
def hexVal (c : Nat) : Option Nat :=
  if 48 ≤ c ∧ c ≤ 57 then some (c - 48)
  else if 97 ≤ c ∧ c ≤ 102 then some (c - 87)
  else if 65 ≤ c ∧ c ≤ 70 then some (c - 55)
  else none

/-- Modelled from the spec: the byte string a hex text denotes
("compare SHA-256(presented) to the decoded hex"); the code itself never
decodes, so this definition exists only to state the claim. -/
def hexDecode : List Nat → Option (List Nat)
  | [] => some []
  | [_] => none
  | a :: b :: rest =>
    match hexVal a, hexVal b, hexDecode rest with
    | some x, some y, some r => some ((x * 16 + y) :: r)
    | _, _, _ => none

example : verifyPassword (fun _ _ => false) (ascii "secret") (ascii "secret") = true := by decide
example :
    verifyPassword (fun _ _ => false)
      (ascii "sha256:ba7816bf8f01cfea414140de5dae2223b00361a396177a9cb410ff61f20015ad")
      (ascii "abc") = true := by decide

/-- The base64url alphabet of encoding/base64.RawURLEncoding. -/
def b64Chars : List Nat :=
  ascii "ABCDEFGHIJKLMNOPQRSTUVWXYZabcdefghijklmnopqrstuvwxyz0123456789-_"

/-- Character for a 6-bit value. -/
def encB64 (v : Nat) : Nat := b64Chars.getD v 0

/-- Position of a character in a list, used to invert the alphabet. -/
def posIn (c : Nat) : List Nat → Option Nat
  | [] => none
  | x :: xs => if x = c then some 0 else (posIn c xs).map (· + 1)

/-- Value of a base64url character. -/
def decB64 (c : Nat) : Option Nat := posIn c b64Chars

/-- encoding/base64.RawURLEncoding.EncodeToString: unpadded base64url. -/
def b64encode : List Nat → List Nat
  | [] => []
  | [a] => [encB64 (a / 4), encB64 (a % 4 * 16)]
  | [a, b] => [encB64 (a / 4), encB64 (a % 4 * 16 + b / 16), encB64 (b % 16 * 4)]
  | a :: b :: c :: rest =>
    encB64 (a / 4) :: encB64 (a % 4 * 16 + b / 16) ::
      encB64 (b % 16 * 4 + c / 64) :: encB64 (c % 64) :: b64encode rest

/-- encoding/base64.RawURLEncoding.DecodeString: quanta of four
characters give three bytes; a final quantum of three or two characters
gives two bytes or one; a single trailing character is an error, as is
any character outside the alphabet.  The non-strict decoder does not
reject unused trailing bits. -/
def b64decode : List Nat → Option (List Nat)
  | [] => some []
  | [_] => none
  | [c1, c2] =>
    match decB64 c1, decB64 c2 with
    | some v1, some v2 => some [v1 * 4 + v2 / 16]
    | _, _ => none
  | [c1, c2, c3] =>
    match decB64 c1, decB64 c2, decB64 c3 with
    | some v1, some v2, some v3 => some [v1 * 4 + v2 / 16, v2 % 16 * 16 + v3 / 4]
    | _, _, _ => none
  | c1 :: c2 :: c3 :: c4 :: rest =>
    match decB64 c1, decB64 c2, decB64 c3, decB64 c4, b64decode rest with
    | some v1, some v2, some v3, some v4, some r =>
      some ((v1 * 4 + v2 / 16) :: (v2 % 16 * 16 + v3 / 4) :: (v3 % 4 * 64 + v4) :: r)
    | _, _, _, _, _ => none

example : b64decode (b64encode (ascii "alice")) = some (ascii "alice") := by decide
example : b64encode (ascii "ab") = ascii "YWI" := by decide

/-- Decimal digits of a natural number, most significant first, written
with enough fuel to cover the value (strconv.FormatInt, base 10, for
non-negative values). -/
def natDecGo : Nat → Nat → List Nat
  | 0, _ => []
  | f + 1, n => if n < 10 then [48 + n] else natDecGo f (n / 10) ++ [48 + n % 10]

/-- strconv.FormatInt(v, 10). -/
def formatInt (v : Int) : List Nat :=
  if v < 0 then 45 :: natDecGo (v.natAbs + 1) v.natAbs
  else natDecGo (v.toNat + 1) v.toNat

/-- Accumulating decimal parse; fails on any non-digit byte. -/
def decDigitsAux : List Nat → Nat → Option Nat
  | [], acc => some acc
  | c :: rest, acc =>
    if 48 ≤ c ∧ c ≤ 57 then decDigitsAux rest (acc * 10 + (c - 48)) else none

/-- strconv.ParseInt(s, 10, 64): optional sign, non-empty digits, and
the int64 range check. -/
def parseInt64 (l : List Nat) : Option Int :=
  match l with
  | [] => none
  | c :: rest =>
    let neg := c = 45
    let digits := if c = 45 ∨ c = 43 then rest else c :: rest
    match digits with
    | [] => none
    | _ =>
      match decDigitsAux digits 0 with
      | none => none
      | some n =>
        if neg then if n ≤ 2 ^ 63 then some (-(n : Int)) else none
        else if n < 2 ^ 63 then some (n : Int) else none

example : parseInt64 (formatInt 1700000000) = some 1700000000 := by decide
example : parseInt64 (ascii "12a") = none := by decide

/-- FsContext.SignToken.  time.Now().Unix() enters as the parameter
nowUnix; the secret key is the byte string drawn at context creation. -/
def signToken (secret : List Nat) (nowUnix : Int) (user : List Nat) : List Nat :=
  let ts := formatInt nowUnix
  let data := b64encode user ++ 46 :: ts
  let sig := b64encode (sha256 (data ++ secret))
  data ++ 46 :: sig

/-- Errors of FsContext.VerifyToken. -/
inductive TokErr
  | badFormat
  | badUser
  | badTs
  | expired
  | badSig
deriving DecidableEq, Repr

deriving instance DecidableEq for Except

/-- FsContext.VerifyToken: split on ".", decode the user, parse the
timestamp, refuse tokens older than seven days, recompute and compare
the signature. -/
def verifyToken (secret : List Nat) (nowUnix : Int) (token : List Nat) :
    Except TokErr (List Nat) :=
  match splitOnE 46 token with
  | [p0, p1, p2] =>
    match b64decode p0 with
    | none => .error .badUser
    | some user =>
      match parseInt64 p1 with
      | none => .error .badTs
      | some ts =>
        if nowUnix - ts > 86400 * 7 then .error .expired
        else
          let data := p0 ++ 46 :: p1
          let expectedSig := b64encode (sha256 (data ++ secret))
          if ctCompare p2 expectedSig == 1 then .ok user else .error .badSig
  | _ => .error .badFormat

example :
    verifyToken (ascii "k") 100 (signToken (ascii "k") 100 (ascii "alice")) =
      .ok (ascii "alice") := by decide
example :
    verifyToken (ascii "k") (100 + 86400 * 7 + 1) (signToken (ascii "k") 100 (ascii "alice")) =
      .error .expired := by decide

/-- Descending-order-with-distinct-prefixes invariant of the mount
table, together with well-formedness of every prefix ("/"-rooted and
not the bare root): exactly what MountFs.Mount establishes. -/
abbrev tableInv (mounts : List Mnt) : Prop :=
  List.Pairwise (fun a b => strLtB b.pfx a.pfx = true) mounts ∧
  ∀ m ∈ mounts, hasPre ['/'] m.pfx = true ∧ m.pfx ≠ ['/']

/-- The specification's notion used by the Stat fallback: the name is a
strict ancestor of the mount prefix (the root is an ancestor of every
other absolute prefix). -/
def strictAncestorB (name q : Str) : Bool :=
  if name == ['/'] then q != ['/'] else hasPre (name ++ ['/']) q

/-- Scenario S6: mounts /app, /app/users, /app/users/admins with backend
identities 1, 2 and 3. -/
def tS6 : List Mnt :=
  match mountAdd [] (str "/app") 1 with
  | .error _ => []
  | .ok t1 =>
    match mountAdd t1 (str "/app/users") 2 with
    | .error _ => t1
    | .ok t2 =>
      match mountAdd t2 (str "/app/users/admins") 3 with
      | .error _ => t2
      | .ok t3 => t3

/-- Scenario S5: mounts /mounted and /mounted/sub. -/
def tS5 : List Mnt :=
  match mountAdd [] (str "/mounted") 1 with
  | .error _ => []
  | .ok t1 =>
    match mountAdd t1 (str "/mounted/sub") 2 with
    | .error _ => t1
    | .ok t2 => t2

/-- A single mount at /a/b/c. -/
def tAbc : List Mnt :=
  match mountAdd [] (str "/a/b/c") 1 with
  | .error _ => []
  | .ok t1 => t1

/-- Scenario S1: the default backend's root directory holds dir1 and
file1.txt. -/
def s1Infos : List FInfo :=
  [⟨str "dir1", MODEDIR ||| 0o755⟩, ⟨str "file1.txt", 0o644⟩]

/-- Scenario S1: one (empty) backend mounted at /mounted. -/
def tS1 : List Mnt :=
  match mountAdd [] (str "/mounted") 1 with
  | .error _ => []
  | .ok t1 => t1

/-- Scenario S1: the merged entries of the root directory. -/
def s1Entries : EntryMap := collectEntries tS1 (str "/") s1Infos

/-- A mount-table mutation: a Mount or an Unmount call. -/
inductive FsOp
  | mnt (pre : Str) (fsId : Nat)
  | unmnt (pre : Str)
deriving DecidableEq, Repr

/-- Run a sequence of Mount/Unmount calls against a table; a failing
Mount leaves the table unchanged, as the error return does. -/
def applyOps : List FsOp → List Mnt → List Mnt
  | [], t => t
  | .mnt pre fsId :: rest, t =>
    applyOps rest
      (match mountAdd t pre fsId with
       | .ok t2 => t2
       | .error _ => t)
  | .unmnt pre :: rest, t => applyOps rest (unmountOp t pre).2

theorem hasPre_iff {α : Type} [DecidableEq α] {pre s : List α} :
    hasPre pre s = true ↔ pre <+: s := by
  simp [hasPre, List.isPrefixOf_iff_prefix]

theorem chLt_self (a : Char) : chLt a a = false := by
  simp [chLt]

theorem chLt_eq_of {a b : Char} (h1 : chLt a b = false) (h2 : chLt b a = false) : a = b := by
  simp only [chLt, decide_eq_false_iff_not, Nat.not_lt] at h1 h2
  have h3 : a.toNat = b.toNat := Nat.le_antisymm h2 h1
  apply Char.eq_of_val_eq
  exact UInt32.toNat.inj h3

theorem chLt_trans {a b c : Char} (h1 : chLt a b = true) (h2 : chLt b c = true) :
    chLt a c = true := by
  simp only [chLt, decide_eq_true_eq] at h1 h2 ⊢
  exact Nat.lt_trans h1 h2

theorem chLt_asymm {a b : Char} (h1 : chLt a b = true) : chLt b a = false := by
  simp only [chLt, decide_eq_true_eq, decide_eq_false_iff_not, Nat.not_lt] at h1 ⊢
  exact Nat.le_of_lt h1

theorem chLt_trich (x y : Char) : chLt x y = true ∨ x = y ∨ chLt y x = true := by
  rcases Nat.lt_trichotomy x.toNat y.toNat with h | h | h
  · left
    simp [chLt, h]
  · right
    left
    exact Char.eq_of_val_eq (UInt32.toNat.inj h)
  · right
    right
    simp [chLt, h]

theorem strLtB_self (s : Str) : strLtB s s = false := by
  induction s with
  | nil => rfl
  | cons a as ih => simp [strLtB, chLt_self, ih]

theorem strLtB_trans {a b c : Str} (h1 : strLtB a b = true) (h2 : strLtB b c = true) :
    strLtB a c = true := by
  induction a generalizing b c with
  | nil =>
    cases c with
    | nil =>
      cases b with
      | nil => simp [strLtB] at h1
      | cons y ys => simp [strLtB] at h2
    | cons z zs => simp [strLtB]
  | cons x xs ih =>
    cases b with
    | nil => simp [strLtB] at h1
    | cons y ys =>
      cases c with
      | nil => simp [strLtB] at h2
      | cons z zs =>
        rcases chLt_trich x y with hxy | rfl | hyx
        · rcases chLt_trich y z with hyz | rfl | hzy
          · simp [strLtB, chLt_trans hxy hyz]
          · simp [strLtB, hxy]
          · simp [strLtB, chLt_asymm hzy, hzy] at h2
        · rcases chLt_trich x z with hxz | rfl | hzx
          · simp [strLtB, hxz]
          · simp only [strLtB, chLt_self, if_false] at h1 h2 ⊢
            exact ih h1 h2
          · simp [strLtB, chLt_asymm hzx, hzx] at h2
        · simp [strLtB, chLt_asymm hyx, hyx] at h1

theorem strLtB_asymm {a b : Str} (h : strLtB a b = true) : strLtB b a = false := by
  cases h2 : strLtB b a with
  | false => rfl
  | true =>
    have h3 := strLtB_trans h h2
    rw [strLtB_self] at h3
    exact Bool.noConfusion h3

theorem strLtB_connex (a b : Str) : a = b ∨ strLtB a b = true ∨ strLtB b a = true := by
  induction a generalizing b with
  | nil =>
    cases b with
    | nil =>
      left
      rfl
    | cons y ys =>
      right
      left
      simp [strLtB]
  | cons x xs ih =>
    cases b with
    | nil =>
      right
      right
      simp [strLtB]
    | cons y ys =>
      rcases chLt_trich x y with h | rfl | h
      · right
        left
        simp [strLtB, h]
      · rcases ih (b := ys) with h2 | h2 | h2
        · left
          rw [h2]
        · right
          left
          simp [strLtB, chLt_self, h2]
        · right
          right
          simp [strLtB, chLt_self, h2]
      · right
        right
        simp [strLtB, h]

theorem strLtB_eq_of {a b : Str} (h1 : strLtB a b = false) (h2 : strLtB b a = false) :
    a = b := by
  rcases strLtB_connex a b with h | h | h
  · exact h
  · rw [h] at h1
    exact Bool.noConfusion h1
  · rw [h] at h2
    exact Bool.noConfusion h2

theorem prefix_strLtB {a b : Str} (hp : a <+: b) (hne : a ≠ b) : strLtB a b = true := by
  induction a generalizing b with
  | nil =>
    cases b with
    | nil => exact absurd rfl hne
    | cons y ys => simp [strLtB]
  | cons x xs ih =>
    cases b with
    | nil => exact absurd (List.prefix_nil.mp hp) (by simp)
    | cons y ys =>
      rw [List.cons_prefix_cons] at hp
      obtain ⟨hxy, hp2⟩ := hp
      subst hxy
      simp only [strLtB, chLt_self, if_false]
      apply ih hp2
      intro heq
      exact hne (by rw [heq])

theorem findMnt_some {path : Str} {mounts : List Mnt} {m : Mnt}
    (h : findMnt path mounts = some m) : m ∈ mounts ∧ mntMatches path m = true := by
  induction mounts with
  | nil => cases h
  | cons x xs ih =>
    by_cases hx : mntMatches path x = true
    · simp only [findMnt, hx, if_true, Option.some.injEq] at h
      subst h
      exact ⟨List.mem_cons_self x xs, hx⟩
    · simp only [findMnt, hx, if_false, Bool.not_eq_true] at h
      rcases ih h with ⟨h1, h2⟩
      exact ⟨List.mem_cons_of_mem x h1, h2⟩

theorem trimPre_self {α : Type} [DecidableEq α] (s : List α) : trimPre s s = [] := by
  have h : hasPre s s = true := hasPre_iff.mpr List.prefix_rfl
  simp [trimPre, h]

theorem trimPre_strict {α : Type} [DecidableEq α] {q path : List α} {c : α}
    (h : hasPre (q ++ [c]) path = true) :
    ∃ t, path = q ++ c :: t ∧ trimPre path q = c :: t := by
  obtain ⟨t, ht⟩ := hasPre_iff.mp h
  have hshape : path = q ++ c :: t := by
    rw [← ht]
    simp
  have hq : hasPre q path = true := by
    apply hasPre_iff.mpr
    exact ⟨c :: t, by rw [hshape]⟩
  refine ⟨t, hshape, ?_⟩
  simp only [trimPre, hq, if_true]
  rw [hshape]
  exact List.drop_left q (c :: t)

theorem hasPre_head {α : Type} [DecidableEq α] (c : α) (t : List α) :
    hasPre [c] (c :: t) = true :=
  hasPre_iff.mpr ⟨t, rfl⟩

theorem mntMatches_cases {path : Str} {m : Mnt} (h : mntMatches path m = true) :
    path = m.pfx ∨ hasPre (m.pfx ++ ['/']) path = true := by
  simp only [mntMatches, Bool.or_eq_true, beq_iff_eq] at h
  exact h

/-- C2: `Resolve` (GetMount) is claimed always to return a relative path
beginning with "/", with the mount root itself yielding "/".  The code
returns strings.TrimPrefix(path, prefix), which is the empty string, not
"/", when the normalized path equals the mount prefix exactly: with a
mount at /app, GetMount("/app") yields relative path "" (GetMountInfo,
not GetMount, maps this case to "/"). -/
theorem c2_counterexample :
    (getMount [⟨str "/app", 1⟩] 0 (str "/app")).2 = [] ∧
    hasPre (str "/") (getMount [⟨str "/app", 1⟩] 0 (str "/app")).2 = false := by
  constructor
  · decide
  · decide

/-- C2 (amended): the relative path returned by GetMount either begins
with "/" or is empty, and it is empty exactly in the case the claim
mis-states: when the normalized path equals the prefix of the resolved
mount. -/
theorem c2_rel_shape (mounts : List Mnt) (dflt : Nat) (p : Str) :
    ((getMount mounts dflt p).2 = [] ∨ hasPre ['/'] (getMount mounts dflt p).2 = true) ∧
    ((getMount mounts dflt p).2 = [] →
      ∃ m ∈ mounts, m.pfx = normalizePath p ∧ (getMount mounts dflt p).1 = m.fsId) := by
  by_cases hroot : normalizePath p = ['/']
  · simp only [getMount, hroot, if_true]
    constructor
    · right
      exact hasPre_head '/' []
    · intro h
      cases h
  · cases hfind : findMnt (normalizePath p) mounts with
    | none =>
      simp only [getMount, hroot, if_false, hfind]
      constructor
      · right
        obtain ⟨t, ht⟩ : ∃ t, normalizePath p = '/' :: t := ⟨_, rfl⟩
        rw [ht]
        exact hasPre_head '/' t
      · intro h
        obtain ⟨t, ht⟩ : ∃ t, normalizePath p = '/' :: t := ⟨_, rfl⟩
        rw [ht] at h
        cases h
    | some m =>
      obtain ⟨hmem, hmatch⟩ := findMnt_some hfind
      simp only [getMount, hroot, if_false, hfind]
      by_cases hEq : normalizePath p = m.pfx
      · rw [hEq, trimPre_self]
        exact ⟨Or.inl rfl, fun _ => ⟨m, hmem, rfl, rfl⟩⟩
      · have h2 : hasPre (m.pfx ++ ['/']) (normalizePath p) = true := by
          rcases mntMatches_cases hmatch with h | h
          · exact absurd h hEq
          · exact h
        obtain ⟨t, _, htrim⟩ := trimPre_strict h2
        rw [htrim]
        exact ⟨Or.inr (hasPre_head '/' t), fun h => by cases h⟩

/-- C2 witness: a strict-extension path resolves to a "/"-rooted
relative path, and the exact-prefix case realizes the empty-string
disjunct together with its characterization. -/
theorem c2_witness :
    ((getMount [⟨str "/app", 1⟩] 0 (str "/app/x")).2 = [] ∨
      hasPre ['/'] (getMount [⟨str "/app", 1⟩] 0 (str "/app/x")).2 = true) ∧
    (∃ m ∈ [(⟨str "/app", 1⟩ : Mnt)], m.pfx = normalizePath (str "/app") ∧
      (getMount [⟨str "/app", 1⟩] 0 (str "/app")).1 = m.fsId) :=
  ⟨(c2_rel_shape [⟨str "/app", 1⟩] 0 (str "/app/x")).1,
   (c2_rel_shape [⟨str "/app", 1⟩] 0 (str "/app")).2 (by decide)⟩

/-- C3: the claim states that any path with a mount strictly below it
fails Remove/RemoveAll with the structural "directory contains a mount
point" error, and in particular that RemoveAll("/mounted") with mounts
/mounted and /mounted/sub fails that way.  The code checks the
direct-mount guard first, so RemoveAll("/mounted") fails with
os.ErrPermission instead, exactly as the repository's own test
TestMountFs_RemoveAll asserts ("permission denied"). -/
theorem c3_counterexample :
    hasChildMount tS5 (str "/mounted") = true ∧
    removeAllOp tS5 0 (str "/mounted") = RemoveOut.errPermission ∧
    RemoveOut.errPermission ≠ RemoveOut.errMountPoint := by
  refine ⟨by decide, by decide, by decide⟩

/-- C3 (amended): a direct mount point fails Remove and RemoveAll with
PermissionDenied even when child mounts exist below it; a path that is
not itself a mount point but has a mount strictly below fails both with
the structural "directory contains a mount point" error; in both cases
the outcome is an error, so nothing is forwarded to a backend.
Concretely, with mounts /mounted and /mounted/sub both Remove and
RemoveAll of "/mounted" fail with PermissionDenied. -/
theorem c3_removal_guards :
    (∀ (mounts : List Mnt) (dflt : Nat) (p : Str),
        (directDir mounts p).isSome = true →
        removeOp mounts dflt p = RemoveOut.errPermission ∧
        removeAllOp mounts dflt p = RemoveOut.errPermission) ∧
    (∀ (mounts : List Mnt) (dflt : Nat) (p : Str),
        (directDir mounts p).isSome = false → hasChildMount mounts p = true →
        removeOp mounts dflt p = RemoveOut.errMountPoint ∧
        removeAllOp mounts dflt p = RemoveOut.errMountPoint) ∧
    removeOp tS5 0 (str "/mounted") = RemoveOut.errPermission ∧
    removeAllOp tS5 0 (str "/mounted") = RemoveOut.errPermission := by
  refine ⟨?_, ?_, by decide, by decide⟩
  · intro mounts dflt p h
    exact ⟨by simp [removeOp, h], by simp [removeAllOp, h]⟩
  · intro mounts dflt p h1 h2
    exact ⟨by simp [removeOp, h1, h2], by simp [removeAllOp, h1, h2]⟩

/-- C3 witness: the direct-mount branch at /mounted and the
child-mount branch at /a above the single mount /a/b/c. -/
theorem c3_witness :
    (removeOp tS5 0 (str "/mounted") = RemoveOut.errPermission ∧
      removeAllOp tS5 0 (str "/mounted") = RemoveOut.errPermission) ∧
    (removeOp tAbc 0 (str "/a") = RemoveOut.errMountPoint ∧
      removeAllOp tAbc 0 (str "/a") = RemoveOut.errMountPoint) :=
  ⟨c3_removal_guards.1 tS5 0 (str "/mounted") (by decide),
   c3_removal_guards.2.1 tAbc 0 (str "/a") (by decide) (by decide)⟩

theorem mntMatches_slash_pfx {path : Str} {m : Mnt} (h : mntMatches path m = true) :
    (m.pfx ++ ['/']) <+: (path ++ ['/']) := by
  rcases mntMatches_cases h with h | h
  · rw [h]
  · exact (hasPre_iff.mp h).trans (List.prefix_append path ['/'])

theorem matches_prefix_of_le {path : Str} {m1 m2 : Mnt}
    (h1 : mntMatches path m1 = true) (h2 : mntMatches path m2 = true)
    (hlen : m1.pfx.length ≤ m2.pfx.length) : m1.pfx <+: m2.pfx := by
  have q12 : (m1.pfx ++ ['/']) <+: (m2.pfx ++ ['/']) :=
    List.prefix_of_prefix_length_le (mntMatches_slash_pfx h1)
      (mntMatches_slash_pfx h2) (by simp [hlen])
  have q3 : m1.pfx <+: (m2.pfx ++ ['/']) :=
    (List.prefix_append m1.pfx ['/']).trans q12
  have q4 : m1.pfx = (m2.pfx ++ ['/']).take m1.pfx.length := List.prefix_iff_eq_take.mp q3
  rw [List.take_append_eq_append_take, Nat.sub_eq_zero_of_le hlen] at q4
  simp only [List.take_zero, List.append_nil] at q4
  rw [q4]
  exact List.take_prefix _ _

theorem no_match_root {m : Mnt} (hw : hasPre ['/'] m.pfx = true ∧ m.pfx ≠ ['/']) :
    mntMatches ['/'] m = false := by
  cases hmt : mntMatches ['/'] m with
  | false => rfl
  | true =>
    exfalso
    rcases mntMatches_cases hmt with h | h
    · exact hw.2 h.symm
    · have hle := (hasPre_iff.mp h).length_le
      have hge := (hasPre_iff.mp hw.1).length_le
      rw [List.length_append] at hle
      simp only [List.length_cons, List.length_nil] at hle hge
      omega

theorem findMnt_longest :
    ∀ (mounts : List Mnt),
      List.Pairwise (fun a b => strLtB b.pfx a.pfx = true) mounts →
      ∀ (path : Str) (m0 : Mnt), m0 ∈ mounts → mntMatches path m0 = true →
      ∃ m, findMnt path mounts = some m ∧ m ∈ mounts ∧ mntMatches path m = true ∧
        ∀ m2 ∈ mounts, mntMatches path m2 = true → m2.pfx.length ≤ m.pfx.length := by
  intro mounts
  induction mounts with
  | nil =>
    intro _ path m0 hm0 _
    cases hm0
  | cons x xs ih =>
    intro hp path m0 hm0 hmt
    by_cases hx : mntMatches path x = true
    · refine ⟨x, by simp [findMnt, hx], List.mem_cons_self x xs, hx, ?_⟩
      intro m2 hm2 hmt2
      rcases List.mem_cons.mp hm2 with rfl | hm2
      · exact le_refl _
      · have hlt : strLtB m2.pfx x.pfx = true := (List.pairwise_cons.mp hp).1 m2 hm2
        by_contra hlen
        push_neg at hlen
        have hpre : x.pfx <+: m2.pfx := matches_prefix_of_le hx hmt2 (le_of_lt hlen)
        have hne : x.pfx ≠ m2.pfx := by
          intro he
          rw [he] at hlen
          exact lt_irrefl _ hlen
        have hgt := strLtB_asymm (prefix_strLtB hpre hne)
        rw [hlt] at hgt
        exact Bool.noConfusion hgt
    · rcases List.mem_cons.mp hm0 with rfl | hm0x
      · exact absurd hmt hx
      · obtain ⟨m, hfind, hmem, hmatch, hmax⟩ :=
          ih (List.pairwise_cons.mp hp).2 path m0 hm0x hmt
        refine ⟨m, by simp [findMnt, hx, hfind], List.mem_cons_of_mem x hmem, hmatch, ?_⟩
        intro m2 hm2 hmt2
        rcases List.mem_cons.mp hm2 with rfl | hm2
        · exact absurd hmt2 hx
        · exact hmax m2 hm2 hmt2

/-- C1: on every mount table satisfying the table invariant (descending
distinct prefixes, as Mount maintains), GetMount resolves each path to
the matching mount with the longest prefix, stripping that prefix; in
the S6 table (/app 1, /app/users 2, /app/users/admins 3) the three
sample paths resolve to backends 3, 2 and 1 with the stated relative
paths. -/
theorem c1_longest_resolution :
    (∀ (mounts : List Mnt) (dflt : Nat) (p : Str), tableInv mounts →
      ∀ m0 ∈ mounts, mntMatches (normalizePath p) m0 = true →
      ∃ m ∈ mounts, mntMatches (normalizePath p) m = true ∧
        getMount mounts dflt p = (m.fsId, trimPre (normalizePath p) m.pfx) ∧
        ∀ m2 ∈ mounts, mntMatches (normalizePath p) m2 = true →
          m2.pfx.length ≤ m.pfx.length) ∧
    getMount tS6 0 (str "/app/users/admins/profile.txt") = (3, str "/profile.txt") ∧
    getMount tS6 0 (str "/app/users/regular/profile.txt") = (2, str "/regular/profile.txt") ∧
    getMount tS6 0 (str "/app/config/settings.yaml") = (1, str "/config/settings.yaml") := by
  refine ⟨?_, by decide, by decide, by decide⟩
  intro mounts dflt p hinv m0 hm0 hmt
  obtain ⟨m, hfind, hmem, hmatch, hmax⟩ := findMnt_longest mounts hinv.1 _ m0 hm0 hmt
  have hroot : ¬ normalizePath p = ['/'] := by
    intro he
    rw [he, no_match_root (hinv.2 m0 hm0)] at hmt
    exact Bool.noConfusion hmt
  refine ⟨m, hmem, hmatch, ?_, hmax⟩
  simp [getMount, hroot, hfind]

/-- C1 witness: the admins mount is the longest match for the S6 sample
path. -/
theorem c1_witness :
    ∃ m ∈ tS6, mntMatches (normalizePath (str "/app/users/admins/profile.txt")) m = true ∧
      getMount tS6 0 (str "/app/users/admins/profile.txt") =
        (m.fsId, trimPre (normalizePath (str "/app/users/admins/profile.txt")) m.pfx) ∧
      ∀ m2 ∈ tS6, mntMatches (normalizePath (str "/app/users/admins/profile.txt")) m2 = true →
        m2.pfx.length ≤ m.pfx.length :=
  c1_longest_resolution.1 tS6 0 (str "/app/users/admins/profile.txt") (by decide)
    ⟨str "/app/users/admins", 3⟩ (by decide) (by decide)

theorem insDesc_perm (m : Mnt) (l : List Mnt) : (insDesc m l).Perm (m :: l) := by
  induction l with
  | nil => exact List.Perm.refl _
  | cons x xs ih =>
    simp only [insDesc]
    by_cases h : strLtB x.pfx m.pfx = true
    · rw [if_pos h]
    · rw [if_neg h]
      exact (ih.cons x).trans (List.Perm.swap m x xs)

theorem sortDesc_perm (l : List Mnt) : (sortDesc l).Perm l := by
  induction l with
  | nil => exact List.Perm.refl _
  | cons x xs ih => exact (insDesc_perm x (sortDesc xs)).trans (ih.cons x)

theorem insDesc_pairwise {m : Mnt} {l : List Mnt}
    (hl : List.Pairwise (fun a b => strLtB a.pfx b.pfx = false) l) :
    List.Pairwise (fun a b => strLtB a.pfx b.pfx = false) (insDesc m l) := by
  induction l with
  | nil => exact List.pairwise_singleton _ m
  | cons x xs ih =>
    obtain ⟨hx, hxs⟩ := List.pairwise_cons.mp hl
    simp only [insDesc]
    by_cases h : strLtB x.pfx m.pfx = true
    · rw [if_pos h]
      refine List.Pairwise.cons ?_ hl
      intro y hy
      rcases List.mem_cons.mp hy with rfl | hy
      · exact strLtB_asymm h
      · cases hc : strLtB m.pfx y.pfx with
        | false => rfl
        | true =>
          have ht := strLtB_trans h hc
          rw [hx y hy] at ht
          exact Bool.noConfusion ht
    · rw [if_neg h]
      refine List.Pairwise.cons ?_ (ih hxs)
      intro y hy
      have hy2 : y ∈ m :: xs := (insDesc_perm m xs).mem_iff.mp hy
      rcases List.mem_cons.mp hy2 with rfl | hy2
      · cases hb : strLtB x.pfx y.pfx with
        | false => rfl
        | true => exact absurd hb h
      · exact hx y hy2

theorem sortDesc_pairwise (l : List Mnt) :
    List.Pairwise (fun a b => strLtB a.pfx b.pfx = false) (sortDesc l) := by
  induction l with
  | nil => exact List.Pairwise.nil
  | cons x xs ih => exact insDesc_pairwise ih

theorem sortDesc_strict {l : List Mnt}
    (hne : List.Pairwise (fun a b : Mnt => a.pfx ≠ b.pfx) l) :
    List.Pairwise (fun a b => strLtB b.pfx a.pfx = true) (sortDesc l) := by
  have h1 := sortDesc_pairwise l
  have h2 : List.Pairwise (fun a b : Mnt => a.pfx ≠ b.pfx) (sortDesc l) :=
    ((sortDesc_perm l).pairwise_iff (fun h => h.symm)).mpr hne
  refine (h1.and h2).imp ?_
  intro a b h
  rcases strLtB_connex b.pfx a.pfx with he | hba | hab
  · exact absurd he.symm h.2
  · exact hba
  · rw [h.1] at hab
    exact Bool.noConfusion hab

theorem removeFirstMnt_sublist (q : Str) (l : List Mnt) :
    (removeFirstMnt q l).Sublist l := by
  induction l with
  | nil => exact List.Sublist.refl _
  | cons x xs ih =>
    simp only [removeFirstMnt]
    by_cases h : x.pfx = q
    · rw [if_pos h]
      exact (List.Sublist.refl xs).cons x
    · rw [if_neg h]
      exact List.Sublist.cons_cons x ih

theorem mountAdd_inv {t : List Mnt} (hinv : tableInv t) (pre : Str) (fsId : Nat)
    {t2 : List Mnt} (h : mountAdd t pre fsId = .ok t2) : tableInv t2 := by
  by_cases h1 : mountNorm pre = ['/']
  · simp [mountAdd, h1] at h
  · by_cases h2 : t.any (fun m => m.pfx == mountNorm pre) = true
    · simp [mountAdd, h1, h2] at h
    · simp only [mountAdd, h1, if_false, h2, Bool.false_eq_true, Except.ok.injEq] at h
      subst h
      constructor
      · apply sortDesc_strict
        rw [List.pairwise_append]
        refine ⟨hinv.1.imp ?_, List.pairwise_singleton _ _, ?_⟩
        · intro a b hab he
          rw [he, strLtB_self] at hab
          exact Bool.noConfusion hab
        · intro a ha b hb
          simp only [List.mem_singleton] at hb
          subst hb
          intro he
          exact h2 (List.any_eq_true.mpr ⟨a, ha, by simp [he]⟩)
      · intro m hm
        have hm2 := (sortDesc_perm _).mem_iff.mp hm
        rcases List.mem_append.mp hm2 with hm3 | hm3
        · exact hinv.2 m hm3
        · simp only [List.mem_singleton] at hm3
          subst hm3
          exact ⟨hasPre_head '/' _, h1⟩

theorem unmount_inv {t : List Mnt} (hinv : tableInv t) (pre : Str) :
    tableInv (unmountOp t pre).2 := by
  simp only [unmountOp]
  by_cases h : t.any (fun m => m.pfx == mountNorm pre) = true
  · rw [if_pos h]
    exact ⟨List.Pairwise.sublist (removeFirstMnt_sublist _ t) hinv.1,
      fun m hm => hinv.2 m ((removeFirstMnt_sublist _ t).subset hm)⟩
  · rw [if_neg h]
    exact hinv

theorem applyOps_inv (ops : List FsOp) : ∀ t, tableInv t → tableInv (applyOps ops t) := by
  induction ops with
  | nil =>
    intro t h
    exact h
  | cons op rest ih =>
    intro t h
    cases op with
    | mnt pre fsId =>
      simp only [applyOps]
      cases hm : mountAdd t pre fsId with
      | ok t2 => exact ih t2 (mountAdd_inv h pre fsId hm)
      | error e => exact ih t h
    | unmnt pre =>
      simp only [applyOps]
      exact ih _ (unmount_inv h pre)

/-- C8: Mount normalizes the prefix, rejects the bare root with an
invalid-argument error, rejects a duplicate normalized prefix with an
already-exists error, and otherwise inserts the new mount (the new table
is a permutation of the old plus the new entry); after every sequence of
Mount and Unmount calls starting from the empty table, the table holds
pairwise-distinct prefixes in strictly descending lexicographic order
(together with well-formedness of each prefix). -/
theorem c8_mount_invariant :
    (∀ (t : List Mnt) (pre : Str) (fsId : Nat),
        mountNorm pre = ['/'] → mountAdd t pre fsId = .error .invalidArg) ∧
    (∀ (t : List Mnt) (pre : Str) (fsId : Nat),
        mountNorm pre ≠ ['/'] → (∃ m ∈ t, m.pfx = mountNorm pre) →
        mountAdd t pre fsId = .error .alreadyExists) ∧
    (∀ (t : List Mnt) (pre : Str) (fsId : Nat),
        mountNorm pre ≠ ['/'] → (¬ ∃ m ∈ t, m.pfx = mountNorm pre) →
        ∃ t2, mountAdd t pre fsId = .ok t2 ∧
          t2.Perm (⟨mountNorm pre, fsId⟩ :: t)) ∧
    (∀ ops : List FsOp, tableInv (applyOps ops [])) := by
  refine ⟨?_, ?_, ?_, ?_⟩
  · intro t pre fsId h
    simp [mountAdd, h]
  · intro t pre fsId h1 h2
    have h3 : t.any (fun m => m.pfx == mountNorm pre) = true := by
      obtain ⟨m, hm, he⟩ := h2
      exact List.any_eq_true.mpr ⟨m, hm, by simp [he]⟩
    simp [mountAdd, h1, h3]
  · intro t pre fsId h1 h2
    have h3 : ¬ t.any (fun m => m.pfx == mountNorm pre) = true := by
      intro hc
      obtain ⟨m, hm, he⟩ := List.any_eq_true.mp hc
      exact h2 ⟨m, hm, by simpa using he⟩
    refine ⟨sortDesc (t ++ [⟨mountNorm pre, fsId⟩]), by simp [mountAdd, h1, h3], ?_⟩
    exact (sortDesc_perm _).trans (List.perm_append_singleton _ t)
  · intro ops
    exact applyOps_inv ops [] ⟨List.Pairwise.nil, fun m hm => absurd hm (List.not_mem_nil m)⟩

/-- C8 witness: the bare root is rejected, re-mounting /mounted over the
S5 table is rejected, and mounting /app on the empty table succeeds with
the permutation property. -/
theorem c8_witness :
    mountAdd [] (str "///") 1 = .error .invalidArg ∧
    mountAdd tS5 (str "/mounted/") 9 = .error .alreadyExists ∧
    (∃ t2, mountAdd [] (str "/app") 1 = .ok t2 ∧
      t2.Perm (⟨mountNorm (str "/app"), 1⟩ :: [])) :=
  ⟨c8_mount_invariant.1 [] (str "///") 1 (by decide),
   c8_mount_invariant.2.1 tS5 (str "/mounted/") 9 (by decide) (by decide),
   c8_mount_invariant.2.2.1 [] (str "/app") 1 (by decide) (by decide)⟩

theorem statVirtualCond_iff {mounts : List Mnt}
    (hw : ∀ m ∈ mounts, hasPre ['/'] m.pfx = true ∧ m.pfx ≠ ['/']) (name : Str) :
    statVirtualCond mounts name = true ↔
      ∃ m ∈ mounts, strictAncestorB name m.pfx = true := by
  simp only [statVirtualCond, List.any_eq_true]
  constructor
  · rintro ⟨m, hm, hc⟩
    refine ⟨m, hm, ?_⟩
    simp only [Bool.and_eq_true, Bool.or_eq_true, bne_iff_ne, beq_iff_eq] at hc
    obtain ⟨⟨hpre, hne⟩, hroot⟩ := hc
    simp only [strictAncestorB, beq_iff_eq]
    by_cases hr : name = ['/']
    · simp only [hr, if_true, bne_iff_ne]
      rw [hr] at hne
      exact fun he => hne he
    · rcases hroot with hroot | hslash
      · exact absurd hroot hr
      · simp only [hr, if_false]
        exact hslash
  · rintro ⟨m, hm, hc⟩
    refine ⟨m, hm, ?_⟩
    simp only [strictAncestorB, beq_iff_eq] at hc
    simp only [Bool.and_eq_true, Bool.or_eq_true, bne_iff_ne, beq_iff_eq]
    by_cases hr : name = ['/']
    · simp only [hr, if_true, bne_iff_ne] at hc
      refine ⟨⟨?_, ?_⟩, Or.inl hr⟩
      · rw [hr]
        exact (hw m hm).1
      · rw [hr]
        exact fun he => hc he
    · simp only [hr, if_false] at hc
      have hp2 : hasPre name m.pfx = true := by
        apply hasPre_iff.mpr
        exact (List.prefix_append name ['/']).trans (hasPre_iff.mp hc)
      refine ⟨⟨hp2, ?_⟩, Or.inr hc⟩
      intro he
      have hl := (hasPre_iff.mp hc).length_le
      rw [he] at hl
      simp [List.length_append] at hl

/-- C4: three-stage Stat resolution.  A direct mount prefix answers with
the synthetic mount FileInfo, which always reports a directory; any
other path first asks the resolved backend, whose success or
non-not-found error is returned as is; only a not-found answer falls
through, producing a virtual directory exactly when the path is a
strict ancestor of some (well-formed) mount prefix and the original
not-found error otherwise.  With a single mount at /a/b/c and a backend
knowing nothing, Stat("/a") and Stat("/a/b") both report directories. -/
theorem c4_stat_stages :
    (∀ (mounts : List Mnt) (dflt : Nat) (env : StatEnv) (p : Str) (m : Mnt),
        directDir mounts (normalizePath p) = some m →
        statOp mounts dflt env p = .mountInfo (baseName (normalizePath p)) m ∧
        statOutIsDir (statOp mounts dflt env p) = some true) ∧
    (∀ (mounts : List Mnt) (dflt : Nat) (env : StatEnv) (p : Str) (i : FInfo),
        directDir mounts (normalizePath p) = none →
        env (getMount mounts dflt (normalizePath p)).1
            (getMount mounts dflt (normalizePath p)).2 = .ok i →
        statOp mounts dflt env p = .backendInfo i) ∧
    (∀ (mounts : List Mnt) (dflt : Nat) (env : StatEnv) (p : Str),
        directDir mounts (normalizePath p) = none →
        env (getMount mounts dflt (normalizePath p)).1
            (getMount mounts dflt (normalizePath p)).2 = .otherErr →
        statOp mounts dflt env p = .errOther) ∧
    (∀ (mounts : List Mnt) (dflt : Nat) (env : StatEnv) (p : Str),
        (∀ m ∈ mounts, hasPre ['/'] m.pfx = true ∧ m.pfx ≠ ['/']) →
        directDir mounts (normalizePath p) = none →
        env (getMount mounts dflt (normalizePath p)).1
            (getMount mounts dflt (normalizePath p)).2 = .notFound →
        (statOp mounts dflt env p = .virtualDir (baseName (normalizePath p)) ↔
          ∃ m ∈ mounts, strictAncestorB (normalizePath p) m.pfx = true) ∧
        (statOp mounts dflt env p = .errNotFound ↔
          ¬ ∃ m ∈ mounts, strictAncestorB (normalizePath p) m.pfx = true)) ∧
    (statOp tAbc 0 (fun _ _ => StatRes.notFound) (str "/a") = .virtualDir (str "a") ∧
      statOutIsDir (statOp tAbc 0 (fun _ _ => StatRes.notFound) (str "/a")) = some true ∧
      statOp tAbc 0 (fun _ _ => StatRes.notFound) (str "/a/b") = .virtualDir (str "b") ∧
      statOutIsDir (statOp tAbc 0 (fun _ _ => StatRes.notFound) (str "/a/b")) = some true) := by
  refine ⟨?_, ?_, ?_, ?_, by decide, by decide, by decide, by decide⟩
  · intro mounts dflt env p m hd
    constructor
    · simp [statOp, hd]
    · simp only [statOp, hd, statOutIsDir]
      decide
  · intro mounts dflt env p i hd henv
    simp [statOp, hd, henv]
  · intro mounts dflt env p hd henv
    simp [statOp, hd, henv]
  · intro mounts dflt env p hw hd henv
    constructor
    · constructor
      · intro hs
        by_cases hc : statVirtualCond mounts (normalizePath p) = true
        · exact (statVirtualCond_iff hw _).mp hc
        · simp [statOp, hd, henv, hc] at hs
      · intro hex
        have hc := (statVirtualCond_iff hw _).mpr hex
        simp [statOp, hd, henv, hc]
    · constructor
      · intro hs hex
        have hc := (statVirtualCond_iff hw _).mpr hex
        simp [statOp, hd, henv, hc] at hs
      · intro hnex
        have hc : statVirtualCond mounts (normalizePath p) = false := by
          cases hcv : statVirtualCond mounts (normalizePath p) with
          | false => rfl
          | true => exact absurd ((statVirtualCond_iff hw _).mp hcv) hnex
        simp [statOp, hd, henv, hc]

/-- C4 witness: the direct-mount stage at /a/b/c and the virtual
fallback stage at /a, both on the single-mount table. -/
theorem c4_witness :
    (statOp tAbc 0 (fun _ _ => StatRes.notFound) (str "/a/b/c") =
        .mountInfo (baseName (normalizePath (str "/a/b/c"))) ⟨str "/a/b/c", 1⟩ ∧
      statOutIsDir (statOp tAbc 0 (fun _ _ => StatRes.notFound) (str "/a/b/c")) = some true) ∧
    (statOp tAbc 0 (fun _ _ => StatRes.notFound) (str "/a") =
          .virtualDir (baseName (normalizePath (str "/a"))) ↔
        ∃ m ∈ tAbc, strictAncestorB (normalizePath (str "/a")) m.pfx = true) :=
  ⟨c4_stat_stages.1 tAbc 0 (fun _ _ => StatRes.notFound) (str "/a/b/c") ⟨str "/a/b/c", 1⟩
      (by decide),
   (c4_stat_stages.2.2.2.1 tAbc 0 (fun _ _ => StatRes.notFound) (str "/a") (by decide)
      (by decide) (by decide)).1⟩

/-- C6: the merged-handle paging contract.  A non-positive count returns
every remaining entry with no end-of-stream signal (so an empty slice at
the end); a positive count at the end of the stream signals io.EOF, and
otherwise returns up to count entries from the current offset while
advancing the offset by exactly the number returned.  In the S1 setup,
four successive calls with count 1 yield dir1, file1.txt, mounted and
then end-of-stream. -/
theorem c6_readdir_paging :
    (∀ (h : DirHandle) (count : Int), count ≤ 0 →
        (readdirGo h count).1 = Except.ok (h.entries.drop h.offset)) ∧
    (∀ (h : DirHandle) (count : Int), 0 < count → h.entries.length ≤ h.offset →
        readdirGo h count = (Except.error RdErr.eof, h)) ∧
    (∀ (h : DirHandle) (count : Int), 0 < count → h.offset < h.entries.length →
        readdirGo h count =
          (Except.ok ((h.entries.drop h.offset).take
              (min count.toNat (h.entries.length - h.offset))),
            ⟨h.entries, h.offset + min count.toNat (h.entries.length - h.offset)⟩)) ∧
    (readdirNamesGo ⟨s1Entries, 0⟩ 1 = (Except.ok [str "dir1"], ⟨s1Entries, 1⟩) ∧
      readdirNamesGo ⟨s1Entries, 1⟩ 1 = (Except.ok [str "file1.txt"], ⟨s1Entries, 2⟩) ∧
      readdirNamesGo ⟨s1Entries, 2⟩ 1 = (Except.ok [str "mounted"], ⟨s1Entries, 3⟩) ∧
      readdirNamesGo ⟨s1Entries, 3⟩ 1 = (Except.error RdErr.eof, ⟨s1Entries, 3⟩)) := by
  refine ⟨?_, ?_, ?_, by decide, by decide, by decide, by decide⟩
  · intro h count hc
    have hc2 : ¬ (0 : Int) < count := Int.not_lt.mpr hc
    by_cases hend : h.entries.length ≤ h.offset
    · have hdrop : h.entries.drop h.offset = [] := List.drop_eq_nil_of_le hend
      simp [readdirGo, hend, hc, hdrop]
    · have htake : (h.entries.drop h.offset).take (h.entries.length - h.offset) =
          h.entries.drop h.offset := by
        rw [← List.length_drop]
        exact List.take_length _
      simp only [readdirGo, if_neg hend]
      rw [if_neg (fun hh => absurd hh.1 hc2), if_neg (fun hh => absurd hh.1 hc2), htake]
  · intro h count hc hend
    have hc2 : ¬ count ≤ 0 := Int.not_le.mpr hc
    simp [readdirGo, hend, hc2]
  · intro h count hc hlt
    have hend : ¬ h.entries.length ≤ h.offset := Nat.not_le.mpr hlt
    have hcn : 0 < count.toNat := by omega
    by_cases hcase : h.offset + count.toNat < h.entries.length
    · have hm := Nat.min_eq_left (show count.toNat ≤ h.entries.length - h.offset by omega)
      have hsub : h.offset + count.toNat - h.offset = count.toNat := by omega
      have hchunk :
          ((h.entries.drop h.offset).take (h.offset + count.toNat - h.offset)).length ≠ 0 := by
        rw [hsub, List.length_take, List.length_drop]
        omega
      simp only [readdirGo, if_neg hend]
      rw [if_pos (show count > 0 ∧ h.offset + count.toNat < h.entries.length from ⟨hc, hcase⟩)]
      rw [if_neg (fun hh => hchunk hh.2)]
      rw [hsub, hm]
    · have hm := Nat.min_eq_right (show h.entries.length - h.offset ≤ count.toNat by omega)
      have hchunk :
          ((h.entries.drop h.offset).take (h.entries.length - h.offset)).length ≠ 0 := by
        rw [List.length_take, List.length_drop]
        omega
      have hoff : h.offset + (h.entries.length - h.offset) = h.entries.length := by omega
      simp only [readdirGo, if_neg hend]
      rw [if_neg (show ¬ (count > 0 ∧ h.offset + count.toNat < h.entries.length) from
        fun hh => absurd hh.2 hcase)]
      rw [if_neg (fun hh => hchunk hh.2)]
      rw [hm, hoff]

/-- C6 witness: the three paging regimes realized on the S1 entries. -/
theorem c6_witness :
    (readdirGo ⟨s1Entries, 0⟩ (-1)).1 = Except.ok (s1Entries.drop 0) ∧
    readdirGo ⟨s1Entries, 3⟩ 1 = (Except.error RdErr.eof, ⟨s1Entries, 3⟩) ∧
    readdirGo ⟨s1Entries, 0⟩ 2 =
      (Except.ok ((s1Entries.drop 0).take (min (Int.toNat 2) (s1Entries.length - 0))),
        ⟨s1Entries, 0 + min (Int.toNat 2) (s1Entries.length - 0)⟩) :=
  ⟨c6_readdir_paging.1 ⟨s1Entries, 0⟩ (-1) (by decide),
   c6_readdir_paging.2.1 ⟨s1Entries, 3⟩ 1 (by decide) (by decide),
   c6_readdir_paging.2.2.1 ⟨s1Entries, 0⟩ 2 (by decide) (by decide)⟩

theorem findPair_put (files : List (Str × GoFile)) (p : Str) (f : GoFile) :
    (assocPut files p f).find? (fun kv => kv.1 == p) = some (p, f) := by
  induction files with
  | nil => simp [assocPut, List.find?]
  | cons kv rest ih =>
    obtain ⟨k0, v0⟩ := kv
    simp only [assocPut]
    by_cases h : k0 = p
    · subst h
      simp [List.find?]
    · rw [if_neg h]
      simp only [List.find?]
      have hb2 : (k0 == p) = false := by simpa using h
      rw [hb2]
      exact ih

theorem bfsLookup_put (files : List (Str × GoFile)) (ro : Bool) (p : Str) (f : GoFile) :
    bfsLookup ⟨assocPut files p f, ro⟩ p = some f := by
  simp [bfsLookup, findPair_put]

theorem findPair_del (files : List (Str × GoFile)) (p : Str) :
    (assocDel files p).find? (fun kv => kv.1 == p) = none := by
  induction files with
  | nil => simp [assocDel]
  | cons kv rest ih =>
    obtain ⟨k0, v0⟩ := kv
    simp only [assocDel, List.filter]
    by_cases h : k0 = p
    · simp only [h, bne_self_eq_false]
      exact ih
    · have hb : ((k0, v0).1 != p) = true := by simpa using h
      rw [hb]
      simp only [List.find?]
      have hb2 : (k0 == p) = false := by simpa using h
      rw [hb2]
      exact ih

theorem lookupRemoveQ (X : BFs) (hro : X.readOnly = false) (p : Str) :
    bfsLookup (bfsRemoveQ X p) p = none := by
  cases hl : bfsLookup X p with
  | none => simp [bfsRemoveQ, bfsRemove, hro, hl]
  | some f =>
    simp only [bfsRemoveQ, bfsRemove, hro, Bool.false_eq_true, if_false, hl]
    simp [bfsLookup, findPair_del]

theorem copyFile_ok {srcFs dstFs : BFs} {src dst : Str} {copyOk chmodOk : Bool}
    {s2 d2 : BFs} (h : copyFile srcFs src dstFs dst copyOk chmodOk = (.ok (), s2, d2)) :
    s2 = srcFs ∧ ∃ f, bfsLookup srcFs src = some f ∧
      bfsLookup d2 dst = some ⟨f.content, f.mode, false⟩ := by
  cases hl : bfsLookup srcFs src with
  | none => simp [copyFile, hl] at h
  | some f =>
    cases hro : dstFs.readOnly with
    | true => simp [copyFile, hl, bfsCreate, hro] at h
    | false =>
      cases hcp : copyOk with
      | false => simp [copyFile, hl, bfsCreate, hro, hcp] at h
      | true =>
        cases hcm : chmodOk with
        | false => simp [copyFile, hl, bfsCreate, hro, hcp, hcm] at h
        | true =>
          simp only [copyFile, hl, bfsCreate, hro, Bool.false_eq_true, if_false, hcp,
            Bool.true_eq_false, hcm, bfsWrite, bfsLookup_put, bfsChmod, Prod.mk.injEq,
            and_true] at h
          obtain ⟨-, hs, hd⟩ := h
          refine ⟨hs.symm, f, rfl, ?_⟩
          rw [← hd]
          exact bfsLookup_put _ false dst ⟨f.content, f.mode, false⟩

theorem bfsRemove_ok_lookup {X Y : BFs} {p : Str} (h : bfsRemove X p = .ok Y) :
    bfsLookup Y p = none := by
  cases hro : X.readOnly with
  | true => simp [bfsRemove, hro] at h
  | false =>
    cases hl : bfsLookup X p with
    | none => simp [bfsRemove, hro, hl] at h
    | some f =>
      simp only [bfsRemove, hro, Bool.false_eq_true, if_false, hl, Except.ok.injEq] at h
      rw [← h]
      simp [bfsLookup, findPair_del]

theorem copyFile_fail {srcFs dstFs : BFs} {src dst : Str} {f : GoFile}
    {copyOk chmodOk : Bool} (hl : bfsLookup srcFs src = some f)
    (hro : dstFs.readOnly = false) (hfail : copyOk = false ∨ chmodOk = false) :
    ∃ e d2, copyFile srcFs src dstFs dst copyOk chmodOk = (.error e, srcFs, d2) ∧
      bfsLookup d2 dst = none := by
  cases hcp : copyOk with
  | false =>
    refine ⟨.ioE,
      bfsRemoveQ ⟨assocPut dstFs.files dst ⟨[], 0o666, false⟩, dstFs.readOnly⟩ dst, ?_, ?_⟩
    · simp [copyFile, hl, bfsCreate, hro]
    · exact lookupRemoveQ
        ⟨assocPut dstFs.files dst ⟨[], 0o666, false⟩, dstFs.readOnly⟩ hro dst
  | true =>
    cases hcm : chmodOk with
    | true =>
      rcases hfail with hf | hf
      · rw [hcp] at hf
        exact Bool.noConfusion hf
      · rw [hcm] at hf
        exact Bool.noConfusion hf
    | false =>
      refine ⟨.ioE,
        bfsRemoveQ ⟨assocPut (assocPut dstFs.files dst ⟨[], 0o666, false⟩) dst
          ⟨f.content, 0o666, false⟩, dstFs.readOnly⟩ dst, ?_, ?_⟩
      · simp [copyFile, hl, bfsCreate, hro, bfsWrite, bfsLookup_put]
      · exact lookupRemoveQ
          ⟨assocPut (assocPut dstFs.files dst ⟨[], 0o666, false⟩) dst
            ⟨f.content, 0o666, false⟩, dstFs.readOnly⟩ hro dst

/-- C7: cross-backend rename of a regular file.  Whenever crossRename
returns success, the destination holds exactly the source's bytes and
mode (as a regular file) and the source no longer exists on the source
backend; whenever the copy or the chmod fails after the destination was
created, the partial destination is removed before the error is
returned and the source backend state is returned untouched. -/
theorem c7_cross_rename_fidelity :
    (∀ (srcFs dstFs : BFs) (src dst : Str) (copyOk chmodOk : Bool) (s2 d2 : BFs),
        crossRename srcFs src dstFs dst copyOk chmodOk = .okOut s2 d2 →
        ∃ f, bfsLookup srcFs src = some f ∧ f.isDir = false ∧
          bfsLookup d2 dst = some ⟨f.content, f.mode, false⟩ ∧
          bfsLookup s2 src = none) ∧
    (∀ (srcFs dstFs : BFs) (src dst : Str) (f : GoFile) (copyOk chmodOk : Bool),
        bfsLookup srcFs src = some f → f.isDir = false → dstFs.readOnly = false →
        (copyOk = false ∨ chmodOk = false) →
        ∃ e d2, crossRename srcFs src dstFs dst copyOk chmodOk = .errOut e srcFs d2 ∧
          bfsLookup d2 dst = none ∧ bfsLookup srcFs src = some f) := by
  constructor
  · intro srcFs dstFs src dst copyOk chmodOk s2 d2 hres
    cases hl : bfsLookup srcFs src with
    | none => simp [crossRename, hl] at hres
    | some f =>
      cases hdir : f.isDir with
      | true => simp [crossRename, hl, hdir] at hres
      | false =>
        simp only [crossRename, hl, hdir, Bool.false_eq_true, if_false] at hres
        rcases hcf : copyFile srcFs src dstFs dst copyOk chmodOk with ⟨r, s2x, d2x⟩
        cases r with
        | error e => simp [hcf] at hres
        | ok u =>
          simp only [hcf] at hres
          obtain ⟨hs2x, f2, hf2, hd⟩ := copyFile_ok hcf
          rw [hl] at hf2
          injection hf2 with hf2
          subst hf2
          cases hrm : bfsRemove s2x src with
          | error e => simp [hrm] at hres
          | ok s3 =>
            simp only [hrm, CrossOut.okOut.injEq] at hres
            obtain ⟨hs3, hd2⟩ := hres
            subst hs3
            subst hd2
            exact ⟨f, rfl, hdir, hd, bfsRemove_ok_lookup hrm⟩
  · intro srcFs dstFs src dst f copyOk chmodOk hl hdir hro hfail
    obtain ⟨e, d2, hcf, hd2⟩ :=
      @copyFile_fail srcFs dstFs src dst f copyOk chmodOk hl hro hfail
    refine ⟨e, d2, ?_, hd2, hl⟩
    simp only [crossRename, hl, hdir, Bool.false_eq_true, if_false, hcf]

/-- C7 witness: a concrete two-byte file moved between two writable
backends, and the chmod-failure cleanup on the same input. -/
theorem c7_witness :
    (∃ f, bfsLookup ⟨[(str "/f", ⟨[1, 2], 0o640, false⟩)], false⟩ (str "/f") = some f ∧
      f.isDir = false ∧
      bfsLookup ⟨[(str "/g", ⟨[1, 2], 0o640, false⟩)], false⟩ (str "/g") =
        some ⟨f.content, f.mode, false⟩ ∧
      bfsLookup ⟨[], false⟩ (str "/f") = none) ∧
    (∃ e d2, crossRename ⟨[(str "/f", ⟨[1, 2], 0o640, false⟩)], false⟩ (str "/f")
        ⟨[], false⟩ (str "/g") true false =
          .errOut e ⟨[(str "/f", ⟨[1, 2], 0o640, false⟩)], false⟩ d2 ∧
      bfsLookup d2 (str "/g") = none ∧
      bfsLookup ⟨[(str "/f", ⟨[1, 2], 0o640, false⟩)], false⟩ (str "/f") =
        some ⟨[1, 2], 0o640, false⟩) :=
  ⟨c7_cross_rename_fidelity.1 ⟨[(str "/f", ⟨[1, 2], 0o640, false⟩)], false⟩ ⟨[], false⟩
      (str "/f") (str "/g") true true ⟨[], false⟩
      ⟨[(str "/g", ⟨[1, 2], 0o640, false⟩)], false⟩ (by decide),
   c7_cross_rename_fidelity.2 ⟨[(str "/f", ⟨[1, 2], 0o640, false⟩)], false⟩ ⟨[], false⟩
      (str "/f") (str "/g") ⟨[1, 2], 0o640, false⟩ true false (by decide) (by decide)
      (by decide) (Or.inr rfl)⟩

theorem assocGet_put_self {β : Type} (mp : List (Str × β)) (k : Str) (v : β) :
    assocGet (assocPut mp k v) k = some v := by
  induction mp with
  | nil => simp [assocPut, assocGet]
  | cons kv rest ih =>
    obtain ⟨k0, v0⟩ := kv
    simp only [assocPut]
    by_cases h : k0 = k
    · rw [if_pos h]
      simp [assocGet, h]
    · rw [if_neg h]
      simp only [assocGet, if_neg h]
      exact ih

theorem assocGet_put_other {β : Type} (mp : List (Str × β)) {k n : Str} (v : β)
    (h : k ≠ n) : assocGet (assocPut mp k v) n = assocGet mp n := by
  induction mp with
  | nil => simp [assocPut, assocGet, h]
  | cons kv rest ih =>
    obtain ⟨k0, v0⟩ := kv
    simp only [assocPut]
    by_cases h0 : k0 = k
    · rw [if_pos h0]
      subst h0
      simp [assocGet, h]
    · rw [if_neg h0]
      simp only [assocGet]
      by_cases h1 : k0 = n
      · rw [if_pos h1, if_pos h1]
      · rw [if_neg h1, if_neg h1]
        exact ih

theorem assocPut_keys_mem {β : Type} (mp : List (Str × β)) (k : Str) (v : β) (n : Str) :
    n ∈ (assocPut mp k v).map Prod.fst ↔ n = k ∨ n ∈ mp.map Prod.fst := by
  induction mp with
  | nil => simp [assocPut]
  | cons kv rest ih =>
    obtain ⟨k0, v0⟩ := kv
    simp only [assocPut]
    by_cases h : k0 = k
    · rw [if_pos h]
      subst h
      simp only [List.map_cons, List.mem_cons]
      tauto
    · rw [if_neg h]
      simp only [List.map_cons, List.mem_cons, ih]
      tauto

theorem assocGet_isSome_iff {β : Type} (mp : List (Str × β)) (n : Str) :
    (assocGet mp n).isSome = true ↔ n ∈ mp.map Prod.fst := by
  induction mp with
  | nil => simp [assocGet]
  | cons kv rest ih =>
    obtain ⟨k0, v0⟩ := kv
    simp only [assocGet, List.map_cons, List.mem_cons]
    by_cases h : k0 = n
    · rw [if_pos h]
      subst h
      exact ⟨fun _ => Or.inl rfl, fun _ => rfl⟩
    · rw [if_neg h]
      simp only [ih]
      constructor
      · intro hm
        exact Or.inr hm
      · rintro (he | hm)
        · exact absurd he.symm h
        · exact hm

theorem assocGet_mem {β : Type} {mp : List (Str × β)} {n : Str} {v : β}
    (h : assocGet mp n = some v) : (n, v) ∈ mp := by
  induction mp with
  | nil => simp [assocGet] at h
  | cons kv rest ih =>
    obtain ⟨k0, v0⟩ := kv
    simp only [assocGet] at h
    by_cases h0 : k0 = n
    · rw [if_pos h0] at h
      injection h with h
      subst h0
      subst h
      exact List.mem_cons_self _ _
    · rw [if_neg h0] at h
      exact List.mem_cons_of_mem _ (ih h)

theorem mem_assocGet {β : Type} {mp : List (Str × β)} (hnd : (mp.map Prod.fst).Nodup)
    {n : Str} {v : β} (h : (n, v) ∈ mp) : assocGet mp n = some v := by
  induction mp with
  | nil => cases h
  | cons kv rest ih =>
    obtain ⟨k0, v0⟩ := kv
    simp only [List.map_cons, List.nodup_cons] at hnd
    rcases List.mem_cons.mp h with he | hm
    · injection he with he1 he2
      subst he1
      subst he2
      simp [assocGet]
    · simp only [assocGet]
      by_cases h0 : k0 = n
      · exfalso
        subst h0
        exact hnd.1 (List.mem_map.mpr ⟨(k0, v), hm, rfl⟩)
      · rw [if_neg h0]
        exact ih hnd.2 hm

theorem assocPut_keys_nodup {β : Type} {mp : List (Str × β)} (hnd : (mp.map Prod.fst).Nodup)
    (k : Str) (v : β) : ((assocPut mp k v).map Prod.fst).Nodup := by
  induction mp with
  | nil => simp [assocPut]
  | cons kv rest ih =>
    obtain ⟨k0, v0⟩ := kv
    simp only [List.map_cons, List.nodup_cons] at hnd
    simp only [assocPut]
    by_cases h : k0 = k
    · rw [if_pos h]
      simp only [List.map_cons, List.nodup_cons]
      exact hnd
    · rw [if_neg h]
      simp only [List.map_cons, List.nodup_cons]
      refine ⟨?_, ih hnd.2⟩
      intro hc
      rcases (assocPut_keys_mem rest k v k0).mp hc with he | hm
      · exact h he
      · exact hnd.1 hm

theorem assocPut_mem_sub {β : Type} {mp : List (Str × β)} {k : Str} {v : β} {e : Str × β}
    (h : e ∈ assocPut mp k v) : e = (k, v) ∨ e ∈ mp := by
  induction mp with
  | nil => simpa [assocPut] using h
  | cons kv rest ih =>
    obtain ⟨k0, v0⟩ := kv
    simp only [assocPut] at h
    by_cases h0 : k0 = k
    · rw [if_pos h0] at h
      subst h0
      rcases List.mem_cons.mp h with he | hm
      · left
        rw [he]
      · right
        exact List.mem_cons_of_mem _ hm
    · rw [if_neg h0] at h
      rcases List.mem_cons.mp h with he | hm
      · right
        rw [he]
        exact List.mem_cons_self _ _
      · rcases ih hm with he | hm2
        · exact Or.inl he
        · exact Or.inr (List.mem_cons_of_mem _ hm2)

theorem splitOnE_ne_nil {α : Type} [DecidableEq α] (sep : α) (l : List α) :
    splitOnE sep l ≠ [] := by
  cases l with
  | nil => simp [splitOnE]
  | cons c rest =>
    cases hs : splitOnE sep rest with
    | nil => simp [splitOnE, hs]
    | cons h t =>
      simp only [splitOnE, hs]
      split
      · simp
      · simp

theorem foldPut_keys (infos : List FInfo) (mp0 : EntryMap) (n : Str) :
    n ∈ ((infos.foldl (fun mp i => assocPut mp i.nm (.fromBackend i)) mp0).map Prod.fst) ↔
      n ∈ infos.map FInfo.nm ∨ n ∈ mp0.map Prod.fst := by
  induction infos generalizing mp0 with
  | nil => simp only [List.foldl_nil, List.map_nil, List.not_mem_nil, false_or]
  | cons i rest ih =>
    simp only [List.foldl_cons, List.map_cons, List.mem_cons]
    rw [ih, assocPut_keys_mem]
    tauto

theorem foldPut_nodup (infos : List FInfo) (mp0 : EntryMap)
    (hnd : (mp0.map Prod.fst).Nodup) :
    ((infos.foldl (fun mp i => assocPut mp i.nm (.fromBackend i)) mp0).map Prod.fst).Nodup := by
  induction infos generalizing mp0 with
  | nil => exact hnd
  | cons i rest ih => exact ih _ (assocPut_keys_nodup hnd _ _)

theorem foldPut_mem (infos : List FInfo) (mp0 : EntryMap) (e : Str × EntryKind)
    (h : e ∈ infos.foldl (fun mp i => assocPut mp i.nm (.fromBackend i)) mp0) :
    (∃ i ∈ infos, e = (i.nm, .fromBackend i)) ∨ e ∈ mp0 := by
  induction infos generalizing mp0 with
  | nil => exact Or.inr h
  | cons i rest ih =>
    rcases ih _ h with ⟨j, hj, he⟩ | hm
    · exact Or.inl ⟨j, List.mem_cons_of_mem _ hj, he⟩
    · rcases assocPut_mem_sub hm with he | hm2
      · exact Or.inl ⟨i, List.mem_cons_self _ _, he⟩
      · exact Or.inr hm2

theorem foldPut_get_backend {infos : List FInfo} {n : Str} {v : EntryKind}
    (h : assocGet (infos.foldl (fun mp i => assocPut mp i.nm (.fromBackend i)) []) n =
      some v) :
    ∃ i ∈ infos, n = i.nm ∧ v = EntryKind.fromBackend i := by
  rcases foldPut_mem infos [] _ (assocGet_mem h) with ⟨i, hi, he⟩ | hm2
  · rw [Prod.mk.injEq] at he
    exact ⟨i, hi, he.1, he.2⟩
  · cases hm2

theorem mntParts_ne_nil (dir : Str) (m : Mnt) : mntParts dir m ≠ [] :=
  splitOnE_ne_nil _ _

theorem firstSeg_eq {dir : Str} {m : Mnt} {nm0 : Str} {restParts : List Str}
    (hp : mntParts dir m = nm0 :: restParts) : firstSeg dir m = nm0 := by
  simp [firstSeg, hp]

theorem addMountEntry_get_direct {dir : Str} {mp : EntryMap} {m : Mnt}
    (hd : isDirectUnder dir m = true) :
    assocGet (addMountEntry dir mp m) (firstSeg dir m) = some (.mountPoint m) := by
  cases hp : mntParts dir m with
  | nil => exact absurd hp (mntParts_ne_nil dir m)
  | cons nm0 restParts =>
    have hr : restParts = [] := by
      simp only [isDirectUnder, hp, List.length_cons, beq_iff_eq] at hd
      exact List.length_eq_zero.mp (by omega)
    subst hr
    simp only [addMountEntry, hp, if_pos rfl]
    rw [firstSeg_eq hp]
    exact assocGet_put_self mp nm0 (.mountPoint m)

theorem addMountEntry_get_other {dir : Str} {mp : EntryMap} {m : Mnt} {n : Str}
    (h : firstSeg dir m ≠ n) :
    assocGet (addMountEntry dir mp m) n = assocGet mp n := by
  cases hp : mntParts dir m with
  | nil => simp [addMountEntry, hp]
  | cons nm0 restParts =>
    have hf : nm0 ≠ n := by
      rw [firstSeg_eq hp] at h
      exact h
    simp only [addMountEntry, hp]
    by_cases hr : restParts = []
    · rw [if_pos hr]
      exact assocGet_put_other mp _ hf
    · rw [if_neg hr]
      by_cases hg : (assocGet mp nm0).isSome = true
      · rw [if_pos hg]
    
      · rw [if_neg hg]
        exact assocGet_put_other mp _ hf

theorem addMountEntry_keys (dir : Str) (mp : EntryMap) (m : Mnt) (n : Str) :
    n ∈ (addMountEntry dir mp m).map Prod.fst ↔
      n = firstSeg dir m ∨ n ∈ mp.map Prod.fst := by
  cases hp : mntParts dir m with
  | nil => exact absurd hp (mntParts_ne_nil dir m)
  | cons nm0 restParts =>
    rw [firstSeg_eq hp]
    simp only [addMountEntry, hp]
    by_cases hr : restParts = []
    · rw [if_pos hr]
      exact assocPut_keys_mem mp nm0 _ n
    · rw [if_neg hr]
      by_cases hg : (assocGet mp nm0).isSome = true
      · rw [if_pos hg]
        refine ⟨Or.inr, ?_⟩
        rintro (rfl | hm)
        · exact (assocGet_isSome_iff mp n).mp hg
        · exact hm
      · rw [if_neg hg]
        exact assocPut_keys_mem mp nm0 _ n

theorem addMountEntry_nodup {dir : Str} {mp : EntryMap} (m : Mnt)
    (hnd : (mp.map Prod.fst).Nodup) :
    ((addMountEntry dir mp m).map Prod.fst).Nodup := by
  cases hp : mntParts dir m with
  | nil => simpa [addMountEntry, hp] using hnd
  | cons nm0 restParts =>
    simp only [addMountEntry, hp]
    by_cases hr : restParts = []
    · rw [if_pos hr]
      exact assocPut_keys_nodup hnd _ _
    · rw [if_neg hr]
      by_cases hg : (assocGet mp nm0).isSome = true
      · rw [if_pos hg]
        exact hnd
      · rw [if_neg hg]
        exact assocPut_keys_nodup hnd _ _

theorem foldMounts_keys (dir : Str) (ms : List Mnt) (mp0 : EntryMap) (n : Str) :
    n ∈ ((ms.foldl (addMountEntry dir) mp0).map Prod.fst) ↔
      (∃ m ∈ ms, firstSeg dir m = n) ∨ n ∈ mp0.map Prod.fst := by
  induction ms generalizing mp0 with
  | nil =>
    simp only [List.foldl_nil]
    constructor
    · intro h
      exact Or.inr h
    · rintro (⟨m, hm, _⟩ | h)
      · cases hm
      · exact h
  | cons m rest ih =>
    simp only [List.foldl_cons]
    rw [ih, addMountEntry_keys]
    constructor
    · rintro (⟨m2, hm2, hs⟩ | (he | hm))
      · exact Or.inl ⟨m2, List.mem_cons_of_mem _ hm2, hs⟩
      · exact Or.inl ⟨m, List.mem_cons_self _ _, he.symm⟩
      · exact Or.inr hm
    · rintro (⟨m2, hm2, hs⟩ | hm)
      · rcases List.mem_cons.mp hm2 with rfl | hm2r
        · exact Or.inr (Or.inl hs.symm)
        · exact Or.inl ⟨m2, hm2r, hs⟩
      · exact Or.inr (Or.inr hm)

theorem foldMounts_nodup (dir : Str) (ms : List Mnt) (mp0 : EntryMap)
    (hnd : (mp0.map Prod.fst).Nodup) :
    ((ms.foldl (addMountEntry dir) mp0).map Prod.fst).Nodup := by
  induction ms generalizing mp0 with
  | nil => exact hnd
  | cons m rest ih => exact ih _ (addMountEntry_nodup m hnd)

theorem foldMounts_preserve (dir : Str) {n : Str} {v : EntryKind} :
    ∀ (ms : List Mnt) (mp : EntryMap), assocGet mp n = some v →
      (∀ m ∈ ms, ¬(isDirectUnder dir m = true ∧ firstSeg dir m = n)) →
      assocGet (ms.foldl (addMountEntry dir) mp) n = some v := by
  intro ms
  induction ms with
  | nil =>
    intro mp h _
    exact h
  | cons m rest ih =>
    intro mp h hnd
    simp only [List.foldl_cons]
    refine ih _ ?_ (fun m2 hm2 => hnd m2 (List.mem_cons_of_mem _ hm2))
    by_cases hseg : firstSeg dir m = n
    · cases hp : mntParts dir m with
      | nil => exact absurd hp (mntParts_ne_nil dir m)
      | cons nm0 restParts =>
        have hf : nm0 = n := by
          rw [← firstSeg_eq hp]
          exact hseg
        have hr : restParts ≠ [] := by
          intro he
          apply hnd m (List.mem_cons_self _ _)
          refine ⟨?_, hseg⟩
          simp [isDirectUnder, hp, he]
        have hg : (assocGet mp nm0).isSome = true := by
          rw [hf, h]
          rfl
        simp only [addMountEntry, hp, if_neg hr, if_pos hg]
        exact h
    · rw [addMountEntry_get_other hseg]
      exact h

theorem foldMounts_direct (dir : Str) {n : Str} :
    ∀ (ms : List Mnt) (mp : EntryMap),
      (∃ m ∈ ms, isDirectUnder dir m = true ∧ firstSeg dir m = n) →
      ∃ m2 ∈ ms, isDirectUnder dir m2 = true ∧ firstSeg dir m2 = n ∧
        assocGet (ms.foldl (addMountEntry dir) mp) n = some (.mountPoint m2) := by
  intro ms
  induction ms with
  | nil =>
    rintro mp ⟨m, hm, _⟩
    cases hm
  | cons m rest ih =>
    intro mp hex
    by_cases hrest : ∃ m2 ∈ rest, isDirectUnder dir m2 = true ∧ firstSeg dir m2 = n
    · obtain ⟨m2, hm2, hd2, hs2, hg⟩ := ih (addMountEntry dir mp m) hrest
      exact ⟨m2, List.mem_cons_of_mem _ hm2, hd2, hs2, hg⟩
    · obtain ⟨m0, hm0, hd0, hs0⟩ := hex
      rcases List.mem_cons.mp hm0 with rfl | hm0r
      · refine ⟨m0, List.mem_cons_self _ _, hd0, hs0, ?_⟩
        simp only [List.foldl_cons]
        refine foldMounts_preserve dir rest _ ?_ ?_
        · rw [← hs0]
          exact addMountEntry_get_direct hd0
        · intro m2 hm2 hc
          exact hrest ⟨m2, hm2, hc.1, hc.2⟩
      · exact absurd ⟨m0, hm0r, hd0, hs0⟩ hrest

theorem foldMounts_virtual (dir : Str) {n : Str} :
    ∀ (ms : List Mnt) (mp : EntryMap),
      assocGet (ms.foldl (addMountEntry dir) mp) n = some .virtualEnt →
      (assocGet mp n = some .virtualEnt ∨ assocGet mp n = none) ∧
      ∀ m ∈ ms, ¬(isDirectUnder dir m = true ∧ firstSeg dir m = n) := by
  intro ms
  induction ms with
  | nil =>
    intro mp h
    exact ⟨Or.inl h, fun m hm => absurd hm (List.not_mem_nil m)⟩
  | cons m rest ih =>
    intro mp h
    simp only [List.foldl_cons] at h
    obtain ⟨hstep, hrest⟩ := ih (addMountEntry dir mp m) h
    by_cases hseg : firstSeg dir m = n
    · cases hp : mntParts dir m with
      | nil => exact absurd hp (mntParts_ne_nil dir m)
      | cons nm0 restParts =>
        have hf : nm0 = n := by
          rw [← firstSeg_eq hp]
          exact hseg
        by_cases hr : restParts = []
        · exfalso
          have hd : isDirectUnder dir m = true := by simp [isDirectUnder, hp, hr]
          have hg : assocGet (addMountEntry dir mp m) n = some (.mountPoint m) := by
            rw [← hseg]
            exact addMountEntry_get_direct hd
          rcases hstep with hv | hn
          · rw [hg] at hv
            cases hv
          · rw [hg] at hn
            cases hn
        · constructor
          · simp only [addMountEntry, hp, if_neg hr] at hstep
            by_cases hg : (assocGet mp nm0).isSome = true
            · rw [if_pos hg] at hstep
              exact hstep
            · right
              have hg2 : ¬ (assocGet mp n).isSome = true := by
                rw [← hf]
                exact hg
              cases hmv : assocGet mp n with
              | none => rfl
              | some v =>
                exfalso
                apply hg2
                rw [hmv]
                rfl
          · intro m2 hm2
            rcases List.mem_cons.mp hm2 with rfl | hm2r
            · rintro ⟨hd, _⟩
              simp only [isDirectUnder, hp, List.length_cons, beq_iff_eq] at hd
              exact hr (List.length_eq_zero.mp (by omega))
            · exact hrest m2 hm2r
    · constructor
      · rw [addMountEntry_get_other hseg] at hstep
        exact hstep
      · intro m2 hm2
        rcases List.mem_cons.mp hm2 with rfl | hm2r
        · rintro ⟨_, hs⟩
          exact hseg hs
        · exact hrest m2 hm2r

theorem insAsc_perm (x : Str × EntryKind) (l : EntryMap) : (insAsc x l).Perm (x :: l) := by
  induction l with
  | nil => exact List.Perm.refl _
  | cons y ys ih =>
    simp only [insAsc]
    by_cases h : strLtB y.1 x.1 = true
    · rw [if_pos h]
      exact (ih.cons y).trans (List.Perm.swap x y ys)
    · rw [if_neg h]

theorem sortAsc_perm (l : EntryMap) : (sortAsc l).Perm l := by
  induction l with
  | nil => exact List.Perm.refl _
  | cons x xs ih => exact (insAsc_perm x (sortAsc xs)).trans (ih.cons x)

theorem insAsc_pairwise {x : Str × EntryKind} {l : EntryMap}
    (hl : List.Pairwise (fun a b => strLtB b.1 a.1 = false) l) :
    List.Pairwise (fun a b => strLtB b.1 a.1 = false) (insAsc x l) := by
  induction l with
  | nil => exact List.pairwise_singleton _ x
  | cons y ys ih =>
    obtain ⟨hy, hys⟩ := List.pairwise_cons.mp hl
    simp only [insAsc]
    by_cases h : strLtB y.1 x.1 = true
    · rw [if_pos h]
      refine List.Pairwise.cons ?_ (ih hys)
      intro z hz
      have hz2 : z ∈ x :: ys := (insAsc_perm x ys).mem_iff.mp hz
      rcases List.mem_cons.mp hz2 with rfl | hz2
      · exact strLtB_asymm h
      · exact hy z hz2
    · rw [if_neg h]
      refine List.Pairwise.cons ?_ hl
      intro z hz
      rcases List.mem_cons.mp hz with rfl | hz
      · cases hb : strLtB z.1 x.1 with
        | false => rfl
        | true => exact absurd hb h
      · cases hb : strLtB z.1 x.1 with
        | false => rfl
        | true =>
          exfalso
          rcases strLtB_connex z.1 y.1 with he | hzy | hyz
          · rw [← he] at h
            exact h hb
          · rw [hy z hz] at hzy
            exact Bool.noConfusion hzy
          · have := strLtB_trans hyz hb
            exact h this

theorem sortAsc_pairwise (l : EntryMap) :
    List.Pairwise (fun a b => strLtB b.1 a.1 = false) (sortAsc l) := by
  induction l with
  | nil => exact List.Pairwise.nil
  | cons x xs ih => exact insAsc_pairwise ih

theorem assocGet_eq_of_perm {mp mp2 : EntryMap} (hp : mp.Perm mp2)
    (hnd : (mp.map Prod.fst).Nodup) (n : Str) : assocGet mp n = assocGet mp2 n := by
  have hnd2 : (mp2.map Prod.fst).Nodup := ((hp.map Prod.fst).nodup_iff).mp hnd
  cases hg : assocGet mp n with
  | none =>
    cases hg2 : assocGet mp2 n with
    | none => rfl
    | some v =>
      exfalso
      have hm : (n, v) ∈ mp := hp.mem_iff.mpr (assocGet_mem hg2)
      rw [mem_assocGet hnd hm] at hg
      cases hg
  | some v =>
    have hm : (n, v) ∈ mp2 := hp.mem_iff.mp (assocGet_mem hg)
    rw [mem_assocGet hnd2 hm]

/-- C5: directory-listing closure and order.  The name set of a merged
listing is exactly the union of the backend entry names and the first
segments of mount prefixes strictly under the directory; the list is
sorted ascending by name; an entry is virtual only when no backend entry
and no directly-attached mount carry its name; a directly-attached
mount always owns the entry of its name (overriding any backend entry);
and in the S1 setup the root listing is [dir1, file1.txt, mounted] with
mounted being the mount-point entry. -/
theorem c5_listing_closure :
    (∀ (mounts : List Mnt) (dir : Str) (infos : List FInfo) (n : Str),
        n ∈ (collectEntries mounts dir infos).map Prod.fst ↔
          n ∈ infos.map FInfo.nm ∨
            ∃ m ∈ getMountsUnder mounts dir, firstSeg dir m = n) ∧
    (∀ (mounts : List Mnt) (dir : Str) (infos : List FInfo),
        List.Pairwise (fun a b => strLtB b.1 a.1 = false)
          (collectEntries mounts dir infos)) ∧
    (∀ (mounts : List Mnt) (dir : Str) (infos : List FInfo) (n : Str),
        (n, EntryKind.virtualEnt) ∈ collectEntries mounts dir infos →
          n ∉ infos.map FInfo.nm ∧
          ¬ ∃ m ∈ getMountsUnder mounts dir,
              isDirectUnder dir m = true ∧ firstSeg dir m = n) ∧
    (∀ (mounts : List Mnt) (dir : Str) (infos : List FInfo) (n : Str),
        (∃ m ∈ getMountsUnder mounts dir,
            isDirectUnder dir m = true ∧ firstSeg dir m = n) →
          ∃ m2 ∈ getMountsUnder mounts dir, isDirectUnder dir m2 = true ∧
            firstSeg dir m2 = n ∧
            (n, EntryKind.mountPoint m2) ∈ collectEntries mounts dir infos) ∧
    ((collectEntries tS1 (str "/") s1Infos).map Prod.fst =
        [str "dir1", str "file1.txt", str "mounted"] ∧
      (str "mounted", EntryKind.mountPoint ⟨str "/mounted", 1⟩) ∈
        collectEntries tS1 (str "/") s1Infos) := by
  refine ⟨?_, ?_, ?_, ?_, by decide, by decide⟩
  · intro mounts dir infos n
    simp only [collectEntries]
    rw [((sortAsc_perm _).map Prod.fst).mem_iff, foldMounts_keys, foldPut_keys]
    simp only [List.map_nil, List.not_mem_nil, or_false]
    exact Or.comm
  · intro mounts dir infos
    simp only [collectEntries]
    exact sortAsc_pairwise _
  · intro mounts dir infos n hmem
    simp only [collectEntries] at hmem
    have hnd1 :
        (((getMountsUnder mounts dir).foldl (addMountEntry dir)
          (infos.foldl (fun mp i => assocPut mp i.nm (.fromBackend i)) [])).map
            Prod.fst).Nodup :=
      foldMounts_nodup dir _ _ (foldPut_nodup infos [] List.nodup_nil)
    have hget := mem_assocGet hnd1 ((sortAsc_perm _).mem_iff.mp hmem)
    obtain ⟨hstep, hnodirect⟩ := foldMounts_virtual dir _ _ hget
    constructor
    · intro hn
      have hs : (assocGet
          (infos.foldl (fun mp i => assocPut mp i.nm (EntryKind.fromBackend i)) [])
            n).isSome = true :=
        (assocGet_isSome_iff _ _).mpr ((foldPut_keys infos [] n).mpr (Or.inl hn))
      rcases hstep with hv | hnone
      · obtain ⟨i, _, _, he2⟩ := foldPut_get_backend hv
        cases he2
      · rw [hnone] at hs
        cases hs
    · rintro ⟨m, hm, hd, hs⟩
      exact hnodirect m hm ⟨hd, hs⟩
  · intro mounts dir infos n hex
    obtain ⟨m2, hm2, hd2, hs2, hget⟩ := foldMounts_direct dir _
      (infos.foldl (fun mp i => assocPut mp i.nm (EntryKind.fromBackend i)) []) hex
    refine ⟨m2, hm2, hd2, hs2, ?_⟩
    simp only [collectEntries]
    exact (sortAsc_perm _).mem_iff.mpr (assocGet_mem hget)

/-- C5 witness: the name-set equation at the name mounted and the
direct-override property, both in the S1 setup. -/
theorem c5_witness :
    (str "mounted" ∈ (collectEntries tS1 (str "/") s1Infos).map Prod.fst ↔
      str "mounted" ∈ s1Infos.map FInfo.nm ∨
        ∃ m ∈ getMountsUnder tS1 (str "/"), firstSeg (str "/") m = str "mounted") ∧
    (∃ m2 ∈ getMountsUnder tS1 (str "/"), isDirectUnder (str "/") m2 = true ∧
      firstSeg (str "/") m2 = str "mounted" ∧
      (str "mounted", EntryKind.mountPoint m2) ∈ collectEntries tS1 (str "/") s1Infos) :=
  ⟨c5_listing_closure.1 tS1 (str "/") s1Infos (str "mounted"),
   c5_listing_closure.2.2.2.1 tS1 (str "/") s1Infos (str "mounted") (by decide)⟩

/-- C9 counterexample: the code compares hex strings, not digests.  The
stored text sha256:E3B0... (upper-case hex) denotes exactly the SHA-256
digest of the empty password, yet verifyPassword rejects the empty
password, because fmt.Sprintf("%x", ...) produces lower-case hex and
the comparison is a byte comparison of the hex texts. -/
theorem c9_counterexample :
    hexDecode (ascii "E3B0C44298FC1C149AFBF4C8996FB92427AE41E4649B934CA495991B7852B855") =
      some (sha256 []) ∧
    verifyPassword (fun _ _ => false)
      (ascii "sha256:E3B0C44298FC1C149AFBF4C8996FB92427AE41E4649B934CA495991B7852B855")
      [] = false := by
  constructor
  · decide
  · decide

/-- C9 (amended): with stored = "sha256:" + hex, verifyPassword accepts
exactly when the lower-case hex encoding of SHA-256(presented) equals
hex as a byte string (so upper-case stored digests never match); with
stored carrying neither recognized scheme, it accepts exactly on literal
equality of stored and presented. -/
theorem c9_verify_password (argon : List Nat → List Nat → Bool)
    (stored plain hex : List Nat) :
    (stored = ascii "sha256:" ++ hex →
      (verifyPassword argon stored plain = true ↔ hexEncode (sha256 plain) = hex)) ∧
    (hasPre (ascii "argon2id:") stored = false → hasPre (ascii "sha256:") stored = false →
      (verifyPassword argon stored plain = true ↔ stored = plain)) := by
  constructor
  · intro hst
    subst hst
    have e1 : ascii "argon2id:" = 97 :: ascii "rgon2id:" := rfl
    have e2 : ascii "sha256:" = 115 :: ascii "ha256:" := rfl
    have hnA : hasPre (ascii "argon2id:") (ascii "sha256:" ++ hex) = false := by
      rw [e1, e2, List.cons_append]
      simp [hasPre, List.isPrefixOf]
    have hS : hasPre (ascii "sha256:") (ascii "sha256:" ++ hex) = true :=
      hasPre_iff.mpr (List.prefix_append _ _)
    have htrim : trimPre (ascii "sha256:" ++ hex) (ascii "sha256:") = hex := by
      simp only [trimPre, hS, if_true]
      exact List.drop_left _ _
    simp only [verifyPassword, hnA, Bool.false_eq_true, if_false, hS, if_true, htrim]
    by_cases he : hex = hexEncode (sha256 plain)
    · simp [ctCompare, he]
    · constructor
      · intro hc
        simp [ctCompare, he] at hc
      · intro hc
        exact absurd hc.symm he
  · intro hA hS
    simp [verifyPassword, hA, hS]

/-- C9 witness: a lower-case stored digest accepts its password, and a
plaintext credential accepts on exact equality. -/
theorem c9_witness :
    (verifyPassword (fun _ _ => false)
        (ascii "sha256:" ++
          ascii "ba7816bf8f01cfea414140de5dae2223b00361a396177a9cb410ff61f20015ad")
        (ascii "abc") = true ↔
      hexEncode (sha256 (ascii "abc")) =
        ascii "ba7816bf8f01cfea414140de5dae2223b00361a396177a9cb410ff61f20015ad") ∧
    (verifyPassword (fun _ _ => false) (ascii "secret") (ascii "secret") = true ↔
      ascii "secret" = ascii "secret") :=
  ⟨(c9_verify_password (fun _ _ => false) _ (ascii "abc")
      (ascii "ba7816bf8f01cfea414140de5dae2223b00361a396177a9cb410ff61f20015ad")).1 rfl,
   (c9_verify_password (fun _ _ => false) (ascii "secret") (ascii "secret") []).2
      (by decide) (by decide)⟩

theorem decB64_encB64 : ∀ v : Nat, v < 64 → decB64 (encB64 v) = some v := by decide

theorem encB64_ne46 (v : Nat) : encB64 v ≠ 46 := by
  by_cases h : v < 64
  · revert h
    revert v
    decide
  · have hlen : b64Chars.length ≤ v := by
      have : b64Chars.length = 64 := rfl
      omega
    have hnone : b64Chars[v]? = none := List.getElem?_eq_none hlen
    simp [encB64, List.getD, hnone]

theorem b64encode_ne46 : ∀ (l : List Nat) (x : Nat), x ∈ b64encode l → x ≠ 46
  | [], x, hx => by simp [b64encode] at hx
  | [a], x, hx => by
    simp only [b64encode, List.mem_cons, List.not_mem_nil, or_false] at hx
    rcases hx with rfl | rfl
    · exact encB64_ne46 _
    · exact encB64_ne46 _
  | [a, b], x, hx => by
    simp only [b64encode, List.mem_cons, List.not_mem_nil, or_false] at hx
    rcases hx with rfl | rfl | rfl
    · exact encB64_ne46 _
    · exact encB64_ne46 _
    · exact encB64_ne46 _
  | a :: b :: c :: rest, x, hx => by
    simp only [b64encode, List.mem_cons] at hx
    rcases hx with rfl | rfl | rfl | rfl | hmem
    · exact encB64_ne46 _
    · exact encB64_ne46 _
    · exact encB64_ne46 _
    · exact encB64_ne46 _
    · exact b64encode_ne46 rest x hmem

theorem splitOnE_no_sep {α : Type} [DecidableEq α] (sep : α) :
    ∀ (l : List α), sep ∉ l → splitOnE sep l = [l]
  | [], _ => rfl
  | c :: rest, h => by
    have hc : ¬ c = sep := fun he => h (he ▸ List.mem_cons_self c rest)
    have hrest : sep ∉ rest := fun hm => h (List.mem_cons_of_mem c hm)
    simp only [splitOnE, splitOnE_no_sep sep rest hrest]
    rw [if_neg hc]

theorem splitOnE_append {α : Type} [DecidableEq α] (sep : α) :
    ∀ (a b : List α), sep ∉ a → splitOnE sep (a ++ sep :: b) = a :: splitOnE sep b
  | [], b, _ => by
    cases hs : splitOnE sep b with
    | nil => exact absurd hs (splitOnE_ne_nil sep b)
    | cons h t =>
      simp [splitOnE, hs]
  | c :: a2, b, h => by
    have hc : ¬ c = sep := fun he => h (he ▸ List.mem_cons_self c a2)
    have ha2 : sep ∉ a2 := fun hm => h (List.mem_cons_of_mem c hm)
    have hrec := splitOnE_append sep a2 b ha2
    simp only [List.cons_append, splitOnE, List.append_eq, hrec]
    rw [if_neg hc]

theorem natDecGo_all_digits :
    ∀ (f n x : Nat), x ∈ natDecGo f n → 48 ≤ x ∧ x ≤ 57 := by
  intro f
  induction f with
  | zero =>
    intro n x hx
    simp [natDecGo] at hx
  | succ f2 ih =>
    intro n x hx
    simp only [natDecGo] at hx
    by_cases hn : n < 10
    · rw [if_pos hn] at hx
      simp only [List.mem_singleton] at hx
      omega
    · rw [if_neg hn] at hx
      rcases List.mem_append.mp hx with hm | hm
      · exact ih _ x hm
      · simp only [List.mem_singleton] at hm
        have : n % 10 < 10 := Nat.mod_lt n (by omega)
        omega

theorem natDecGo_ne_nil (f n : Nat) (hf : 0 < f) : natDecGo f n ≠ [] := by
  cases f with
  | zero => omega
  | succ f2 =>
    simp only [natDecGo]
    by_cases hn : n < 10
    · rw [if_pos hn]
      simp
    · rw [if_neg hn]
      simp

theorem decDigitsAux_append (l1 l2 : List Nat) (acc : Nat) :
    decDigitsAux (l1 ++ l2) acc =
      match decDigitsAux l1 acc with
      | some m => decDigitsAux l2 m
      | none => none := by
  induction l1 generalizing acc with
  | nil => simp [decDigitsAux]
  | cons c rest ih =>
    simp only [List.cons_append, decDigitsAux]
    by_cases hc : 48 ≤ c ∧ c ≤ 57
    · rw [if_pos hc, if_pos hc]
      exact ih _
    · rw [if_neg hc, if_neg hc]

theorem natDecGo_correct :
    ∀ (f n acc : Nat), n < f →
      decDigitsAux (natDecGo f n) acc = some (acc * 10 ^ (natDecGo f n).length + n) := by
  intro f
  induction f with
  | zero => omega
  | succ f2 ih =>
    intro n acc hn
    simp only [natDecGo]
    by_cases h10 : n < 10
    · rw [if_pos h10]
      simp only [decDigitsAux]
      rw [if_pos (by omega)]
      simp only [List.length_singleton, pow_one]
      congr 1
      omega
    · rw [if_neg h10]
      have hrec : n / 10 < f2 := by omega
      rw [decDigitsAux_append, ih (n / 10) acc hrec]
      simp only [decDigitsAux]
      rw [if_pos (by have : n % 10 < 10 := Nat.mod_lt n (by omega); omega)]
      simp only [List.length_append, List.length_singleton]
      congr 1
      have hdm : n / 10 * 10 + n % 10 = n := by omega
      calc (acc * 10 ^ (natDecGo f2 (n / 10)).length + n / 10) * 10 + (48 + n % 10 - 48)
          = acc * (10 ^ (natDecGo f2 (n / 10)).length * 10) + (n / 10 * 10 + n % 10) := by
            have : 48 + n % 10 - 48 = n % 10 := by omega
            rw [this]
            ring
        _ = acc * 10 ^ ((natDecGo f2 (n / 10)).length + 1) + n := by rw [hdm, pow_succ]

theorem parseInt64_format {ts : Int} (h0 : 0 ≤ ts) (h1 : ts < 2 ^ 63) :
    parseInt64 (formatInt ts) = some ts := by
  have hneg : ¬ ts < 0 := by omega
  have hfmt : formatInt ts = natDecGo (ts.toNat + 1) ts.toNat := by
    simp [formatInt, hneg]
  cases hd : natDecGo (ts.toNat + 1) ts.toNat with
  | nil => exact absurd hd (natDecGo_ne_nil _ _ (by omega))
  | cons c cs =>
    have hcd : 48 ≤ c ∧ c ≤ 57 :=
      natDecGo_all_digits _ _ c (hd ▸ List.mem_cons_self c cs)
    have hc45 : ¬ (c = 45 ∨ c = 43) := by omega
    have hparse : decDigitsAux (c :: cs) 0 = some ts.toNat := by
      have hcor := natDecGo_correct (ts.toNat + 1) ts.toNat 0 (by omega)
      rw [hd] at hcor
      simpa using hcor
    have hlt : ts.toNat < 2 ^ 63 := by omega
    rw [hfmt, hd]
    simp only [parseInt64, if_neg hc45, hparse]
    rw [if_neg (show ¬ c = 45 by omega), if_pos hlt]
    rw [Int.toNat_of_nonneg h0]

theorem b64_roundtrip :
    ∀ (l : List Nat), (∀ x ∈ l, x < 256) → b64decode (b64encode l) = some l
  | [], _ => rfl
  | [a], h => by
    have ha : a < 256 := h a (by simp)
    have h1 := decB64_encB64 (a / 4) (by omega)
    have h2 := decB64_encB64 (a % 4 * 16) (by omega)
    simp only [b64encode, b64decode, h1, h2]
    have e1 : a / 4 * 4 + a % 4 * 16 / 16 = a := by omega
    rw [e1]
  | [a, b], h => by
    have ha : a < 256 := h a (by simp)
    have hb : b < 256 := h b (by simp)
    have h1 := decB64_encB64 (a / 4) (by omega)
    have h2 := decB64_encB64 (a % 4 * 16 + b / 16) (by omega)
    have h3 := decB64_encB64 (b % 16 * 4) (by omega)
    simp only [b64encode, b64decode, h1, h2, h3]
    have e1 : a / 4 * 4 + (a % 4 * 16 + b / 16) / 16 = a := by omega
    have e2 : (a % 4 * 16 + b / 16) % 16 * 16 + b % 16 * 4 / 4 = b := by omega
    rw [e1, e2]
  | a :: b :: c :: rest, h => by
    have ha : a < 256 := h a (by simp)
    have hb : b < 256 := h b (by simp)
    have hc : c < 256 := h c (by simp)
    have hrest : ∀ x ∈ rest, x < 256 := fun x hx => h x (by simp [hx])
    have h1 := decB64_encB64 (a / 4) (by omega)
    have h2 := decB64_encB64 (a % 4 * 16 + b / 16) (by omega)
    have h3 := decB64_encB64 (b % 16 * 4 + c / 64) (by omega)
    have h4 := decB64_encB64 (c % 64) (by omega)
    have hr := b64_roundtrip rest hrest
    simp only [b64encode, b64decode, h1, h2, h3, h4, hr]
    have e1 : a / 4 * 4 + (a % 4 * 16 + b / 16) / 16 = a := by omega
    have e2 : (a % 4 * 16 + b / 16) % 16 * 16 + (b % 16 * 4 + c / 64) / 4 = b := by omega
    have e3 : (b % 16 * 4 + c / 64) % 4 * 64 + c % 64 = c := by omega
    rw [e1, e2, e3]

/-- C10: token round-trip.  Signing a user name and verifying the token
with the same secret succeeds and returns the user name, whenever
verification happens within the seven-day expiry window of the signing
time (the signing time being any representable non-negative Unix
timestamp). -/
theorem c10_token_roundtrip (secret user : List Nat) (ts now : Int)
    (hu : ∀ b ∈ user, b < 256) (h0 : 0 ≤ ts) (h1 : ts < 2 ^ 63)
    (hw : now - ts ≤ 86400 * 7) :
    verifyToken secret now (signToken secret ts user) = .ok user := by
  have hneg : ¬ ts < 0 := by omega
  have hnots : (46 : Nat) ∉ formatInt ts := by
    intro hm
    simp only [formatInt, if_neg hneg] at hm
    have := natDecGo_all_digits _ _ 46 hm
    omega
  have hnou : (46 : Nat) ∉ b64encode user := fun hm => b64encode_ne46 _ _ hm rfl
  have hnosig : (46 : Nat) ∉
      b64encode (sha256 ((b64encode user ++ 46 :: formatInt ts) ++ secret)) :=
    fun hm => b64encode_ne46 _ _ hm rfl
  have hsplit : splitOnE 46 (signToken secret ts user) =
      [b64encode user, formatInt ts,
        b64encode (sha256 ((b64encode user ++ 46 :: formatInt ts) ++ secret))] := by
    simp only [signToken]
    rw [List.append_assoc, List.cons_append, splitOnE_append 46 _ _ hnou,
      splitOnE_append 46 _ _ hnots, splitOnE_no_sep 46 _ hnosig]
  simp only [verifyToken, hsplit, b64_roundtrip user hu, parseInt64_format h0 h1]
  rw [if_neg (show ¬ now - ts > 86400 * 7 by omega)]
  simp [ctCompare]

/-- C10 witness: a concrete token for the user alice signed at time 100
verifies at time 100. -/
theorem c10_witness :
    verifyToken (ascii "k") 100 (signToken (ascii "k") 100 (ascii "alice")) =
      Except.ok (ascii "alice") :=
  c10_token_roundtrip (ascii "k") (ascii "alice") 100 100 (by decide) (by decide)
    (by decide) (by decide)
